import Mathlib

/-!
# Verification of the attune service-lifecycle library

A shallow embedding of `src/index.js` of the attune repository: a System
manages named services with declared dependencies, computes a topological
start order at construction, and exposes start/stop lifecycle operations
that invoke user-supplied callbacks.

JavaScript values are modelled as follows:
* service slots (`this._services[k]`) hold `SVal`: `undef` (absent key /
  `undefined`), `null`, or `val v` with an opaque payload (`Int`);
* configuration records are association lists of fields whose values are
  classified exactly as finely as the source inspects them (`FieldVal`);
* thrown exceptions are materialised in `JsError`; since a JavaScript
  exception unwinds the stack but leaves the heap as it was, every
  operation returns an `Outcome` that carries the (possibly mutated)
  state alongside the error, never discarding it;
* callback invocations are recorded in a trace of `Event`s so that
  invocation counts and the arguments passed at invocation time are
  observable.

Recursion in `System.prototype.start` is through the JavaScript call
stack; the embedding gives `startS` a fuel parameter decreasing by one at
each nested call, and `JsError.fuelOut` models stack exhaustion.
-/

namespace Attune

/-- A JavaScript value stored in a service slot: `undefined` (the key is
absent or the slot was assigned `undefined`), `null`, or a proper runtime
value with an opaque integer payload. -/
inductive SVal where
  | undef : SVal
  | null : SVal
  | val (v : Int) : SVal
deriving DecidableEq, Repr

/-- A configuration-record field value, classified exactly as finely as the
source inspects record fields: a string (a single-dependency `depends`
statement), an array of strings (a multi-dependency `depends` statement), a
function value, or any other non-callable data value. -/
inductive FieldVal where
  | depStr (s : String) : FieldVal
  | depList (xs : List String) : FieldVal
  | fnVal : FieldVal
  | dataVal : FieldVal
deriving DecidableEq, Repr

/-- A configuration record: an ordered association list of fields, as a
JavaScript object with string keys. JavaScript objects cannot hold the
same key twice. -/
abbrev Record := List (String × FieldVal)

/-- Service configuration data: ordered mapping from service name to its
configuration record (`config` in the source). -/
abbrev Config := List (String × Record)

/-- Exceptions thrown by the embedded code. -/
inductive JsError where
  /-- A validation `TypeError` thrown by `checkConfig` / `checkFns`. -/
  | typeError (msg : String) : JsError
  /-- The cyclic-dependency error thrown by the `toposort` library. -/
  | cycleError : JsError
  /-- The unknown-node error thrown by the `toposort` library when an edge
  endpoint is not among the supplied vertices. -/
  | unknownNode : JsError
  /-- The `TypeError` raised when reading a property of `undefined`. -/
  | undefinedAccess (what : String) : JsError
  /-- An exception thrown by a user start/stop callback, carried unmodified. -/
  | cbError (e : String) : JsError
  /-- Call-stack exhaustion (fuel ran out in the embedding). -/
  | fuelOut : JsError
deriving DecidableEq, Repr

/-- A recorded callback invocation: the service name together with the
arguments the source passes at that moment. -/
inductive Event where
  /-- `behaviors[name].start(config, depValues)` was invoked with the given
  dependency-values object. -/
  | startEv (name : String) (args : List (String × SVal)) : Event
  /-- `behaviors[name].stop(value, depValues)` was invoked with the given
  current value and dependency-values object. -/
  | stopEv (name : String) (v : SVal) (args : List (String × SVal)) : Event
deriving DecidableEq, Repr

/-- A behavior-registry entry: a mandatory start callback and an optional
stop callback. A callback either returns an `SVal` or throws an opaque
exception (`Except.error`). -/
structure FnsEntry where
  start : Config → List (String × SVal) → Except String SVal
  stop : Option (SVal → List (String × SVal) → Except String SVal)

/-- The behavior registry (`fns` in the source): ordered mapping from
service name to its start/stop callbacks. -/
abbrev Fns := List (String × FnsEntry)

/-- The state owned by a `System` instance: its fields `config`, `_order`,
`_services` and `_fns`.  The per-service getters of the source read
`_services` and are modelled by `lookupSVal state._services name`. -/
structure SystemState where
  config : Config
  _order : List String
  _services : List (String × SVal)
  _fns : Fns

/-- The result of running one operation: the error it threw (if any), the
state it left behind — a JavaScript exception unwinds the stack but keeps
all heap mutations — and the trace of callback invocations it performed. -/
structure Outcome where
  err : Option JsError
  st : SystemState
  tr : List Event

/-- JavaScript property read `o[k]` on an association list: the value at
the first matching key, or `none` for `undefined`. -/
def lookupA {α : Type} (l : List (String × α)) (k : String) : Option α :=
  (l.find? (fun kv => kv.1 == k)).map Prod.snd

/-- Service-slot read `this._services[k]`: `undef` when the key is absent. -/
def lookupSVal (services : List (String × SVal)) (k : String) : SVal :=
  match lookupA services k with
  | some v => v
  | none => SVal.undef

/-- JavaScript property assignment `o[k] = v` on an association list:
updates the first occurrence of `k` in place, or appends the key when
absent (JavaScript adds a new own property at the end of key order). -/
def setA {α : Type} : List (String × α) → String → α → List (String × α)
  | [], k, v => [(k, v)]
  | kv :: rest, k, v =>
    if kv.1 = k then (k, v) :: rest else kv :: setA rest k v

/-- `nullifyVals` of the source: the same keys, every value `null`. -/
def nullifyVals (o : Config) : List (String × SVal) :=
  o.map (fun kv => (kv.1, SVal.null))

/-- `dependsOn` of the source: the dependency names of a service.  A string
`depends` yields a one-element list, an array yields itself, and a missing
`depends` yields `[]` via `(conf[service].depends || [])`; a `dataVal`
(non-callable, non-dependency datum) in `depends` position likewise falls
through to `[]` as a falsy value would.  (A service name absent from `conf`
makes the source throw when reading `.depends` of `undefined`; `start` and
`stop` below raise that error before calling this function, so the `[]`
returned here for an absent name is never observed.) -/
def dependsOn (conf : Config) (service : String) : List String :=
  match lookupA conf service with
  | some r =>
    match lookupA r "depends" with
    | some (FieldVal.depStr s) => [s]
    | some (FieldVal.depList xs) => xs
    | _ => []
  | none => []

/-- `depEdges` of the source: one edge `(dep, service)` per dependency. -/
def depEdges (conf : Config) (service : String) : List (String × String) :=
  (dependsOn conf service).map (fun dep => (dep, service))

/-- `edges` of the source.  (The source ends with `.filter(isNotEmpty)`,
which never removes anything: every edge produced by `depEdges` is a
two-element array.) -/
def edges (conf : Config) : List (String × String) :=
  conf.flatMap (fun kv => depEdges conf kv.1)

/-- `collectDeps` of the source: build the dependency-values object by
reducing over the dependency names, reading each slot from `services`. -/
def collectDeps (deps : List String) (services : List (String × SVal)) :
    List (String × SVal) :=
  deps.foldl (fun acc dep => setA acc dep (lookupSVal services dep)) []

/-- Modelled from the spec: `toposort.array` is provided by the external
`toposort` npm package, whose source is not part of this repository.  Spec
section 4.1 specifies it: a topological sort over the given vertex list and
edge list, failing when the graph contains a cycle, with ties among
independent vertices broken deterministically by input enumeration order.
This is the algorithm of Kahn selecting, at every step, the first remaining
vertex with no incoming edge; when none exists the remaining vertices all
lie on cycles and the cyclic-dependency error is raised.  The fuel always
suffices, starting at the vertex count (one vertex is removed per step). -/
def toposortGo : Nat → List String → List (String × String) →
    Except JsError (List String)
  | 0, [], _ => Except.ok []
  | 0, _ :: _, _ => Except.error JsError.cycleError
  | Nat.succ fuel, ns, es =>
    match ns with
    | [] => Except.ok []
    | _ :: _ =>
      match ns.find? (fun n => es.all (fun e => e.2 ≠ n)) with
      | none => Except.error JsError.cycleError
      | some n =>
        match toposortGo fuel (ns.erase n) (es.filter (fun e => e.1 ≠ n)) with
        | Except.error e => Except.error e
        | Except.ok rest => Except.ok (n :: rest)

/-- Modelled from the spec: the entry point of the external `toposort`
package.  It first checks that every edge endpoint is a known vertex
(spec section 7, UnknownDependencyError: an unknown `depends` entry fails
resolution), then runs the sort. -/
def toposortArray (nodes : List String) (es : List (String × String)) :
    Except JsError (List String) :=
  if es.all (fun e => nodes.contains e.1 && nodes.contains e.2) then
    toposortGo nodes.length nodes es
  else Except.error JsError.unknownNode

/-- `sortDeps` of the source: topologically sort the service names. -/
def sortDeps (conf : Config) : Except JsError (List String) :=
  toposortArray (conf.map Prod.fst) (edges conf)

/-- The validation error messages of the source (`errors.conf`). -/
def errorsConfDepends : String := "Depends must be either an array or string."

/-- The validation error message for a callable configuration value. -/
def errorsConfBehaviour : String :=
  "Service configuration data should not contain functions."

/-- Field predicate `isDepends` of the source: an array or a string. -/
def isDependsField : FieldVal → Bool
  | FieldVal.depStr _ => true
  | FieldVal.depList _ => true
  | _ => false

/-- Field predicate `isFn` of the source. -/
def isFnField : FieldVal → Bool
  | FieldVal.fnVal => true
  | _ => false

/-- The body of `checkConfig` for one configuration entry.  (The leading
`isObject` test of the source never fires on the embedded domain, where
every record is an object.)  The `depends` check precedes the scan of the
field values for callables, as in the source. -/
def checkRecord (r : Record) : Except JsError Bool :=
  match lookupA r "depends" with
  | some dv =>
    if isDependsField dv then
      if r.any (fun kv => isFnField kv.2) then
        Except.error (JsError.typeError errorsConfBehaviour)
      else Except.ok true
    else Except.error (JsError.typeError errorsConfDepends)
  | none =>
    if r.any (fun kv => isFnField kv.2) then
      Except.error (JsError.typeError errorsConfBehaviour)
    else Except.ok true

/-- `checkConfig` of the source: validate each configuration entry in key
order, throwing at the first invalid one. -/
def checkConfig : Config → Except JsError Bool
  | [] => Except.ok true
  | kv :: rest =>
    match checkRecord kv.2 with
    | Except.error e => Except.error e
    | Except.ok _ => checkConfig rest

/-- `checkFns` of the source iterates the behavior entries, requiring each
to be an object with a callable `start` and an optional callable `stop`.
Every `FnsEntry` of the embedded domain satisfies those checks by
construction, so on this domain the function returns `true`. -/
def checkFns (_ : Fns) : Bool := true

/-- `check` of the source: configuration first, then behaviors. -/
def check (conf : Config) (fns : Fns) : Except JsError Bool :=
  match checkConfig conf with
  | Except.error e => Except.error e
  | Except.ok _ => Except.ok (checkFns fns)

/-- The `System` constructor: optional validation, then the topological
sort (propagating its error), then the nulled-out service map.  The
per-service getters the source installs read `_services` and are modelled
by `lookupSVal`. -/
def mkSystem (config : Config) (fns : Fns) (validate : Bool) :
    Except JsError SystemState :=
  match (if validate then check config fns else Except.ok true) with
  | Except.error e => Except.error e
  | Except.ok _ =>
    match sortDeps config with
    | Except.error e => Except.error e
    | Except.ok order =>
      Except.ok { config := config, _order := order,
                  _services := nullifyVals config, _fns := fns }

/-- `forEach` over service names: run `f` on each name in turn, threading
the state; a thrown exception aborts the iteration and propagates, keeping
the state and trace accumulated so far. -/
def runEach (f : SystemState → String → Outcome) :
    SystemState → List String → Outcome
  | st, [] => { err := none, st := st, tr := [] }
  | st, d :: ds =>
    let o := f st d
    match o.err with
    | some e => { err := some e, st := o.st, tr := o.tr }
    | none =>
      let o2 := runEach f o.st ds
      { err := o2.err, st := o2.st, tr := o.tr ++ o2.tr }

/-- `System.prototype.start` with a service name.  Reads the dependency
list (throwing when the name has no configuration entry), recursively
starts every direct dependency first, then — only when the slot is
strictly `null` — invokes the start callback on the full configuration and
the collected dependency values and stores its result.  Each recursive
call descends one stack frame, consuming one unit of fuel. -/
def startS : Nat → SystemState → String → Outcome
  | 0, st, _ => { err := some JsError.fuelOut, st := st, tr := [] }
  | Nat.succ fuel, st, service =>
    match lookupA st.config service with
    | none =>
      { err := some (JsError.undefinedAccess "depends"), st := st, tr := [] }
    | some _ =>
      let deps := dependsOn st.config service
      let o1 := runEach (startS fuel) st deps
      match o1.err with
      | some e => { err := some e, st := o1.st, tr := o1.tr }
      | none =>
        if lookupSVal o1.st._services service = SVal.null then
          match lookupA o1.st._fns service with
          | none =>
            { err := some (JsError.undefinedAccess "start"),
              st := o1.st, tr := o1.tr }
          | some entry =>
            let args := collectDeps deps o1.st._services
            match entry.start o1.st.config args with
            | Except.error e =>
              { err := some (JsError.cbError e), st := o1.st,
                tr := o1.tr ++ [Event.startEv service args] }
            | Except.ok v =>
              { err := none,
                st := { o1.st with
                        _services := setA o1.st._services service v },
                tr := o1.tr ++ [Event.startEv service args] }
        else { err := none, st := o1.st, tr := o1.tr }

/-- `System.prototype.start` with no argument: start every service in the
stored order. -/
def startAllS (fuel : Nat) (st : SystemState) : Outcome :=
  runEach (startS fuel) st st._order

/-- `System.prototype.stop` with a service name.  Reads the dependency
list (throwing when the name has no configuration entry), destructures the
behavior entry (throwing when that entry is `undefined` — this happens
before the slot is inspected), and only then, when the slot is not
strictly `null`, invokes the stop callback if one is registered and sets
the slot to `null`, discarding the callback result. -/
def stopS (st : SystemState) (service : String) : Outcome :=
  match lookupA st.config service with
  | none =>
    { err := some (JsError.undefinedAccess "depends"), st := st, tr := [] }
  | some _ =>
    let deps := dependsOn st.config service
    match lookupA st._fns service with
    | none =>
      { err := some (JsError.undefinedAccess "stop"), st := st, tr := [] }
    | some entry =>
      match lookupSVal st._services service with
      | SVal.null => { err := none, st := st, tr := [] }
      | sv =>
        match entry.stop with
        | some stopFn =>
          let args := collectDeps deps st._services
          match stopFn sv args with
          | Except.error e =>
            { err := some (JsError.cbError e), st := st,
              tr := [Event.stopEv service sv args] }
          | Except.ok _ =>
            { err := none,
              st := { st with _services := setA st._services service SVal.null },
              tr := [Event.stopEv service sv args] }
        | none =>
          { err := none,
            st := { st with _services := setA st._services service SVal.null },
            tr := [] }

/-- `System.prototype.stop` with no argument: `this._order.reverse()`
mutates the cached order array in place and returns it, and the iteration
then stops each service of the reversed array in turn. -/
def stopAllS (st : SystemState) : Outcome :=
  let st' := { st with _order := st._order.reverse }
  runEach stopS st' st'._order

/-! ## The dependency graph -/

/-- The service names of a configuration, in enumeration order. -/
def keys (conf : Config) : List String :=
  conf.map Prod.fst

/-- `d` is a direct dependency of `s` in `conf`. -/
def DirectDep (conf : Config) (d s : String) : Prop :=
  d ∈ dependsOn conf s

/-- `d` is a direct or transitive dependency of `s` in `conf`. -/
def TransDep (conf : Config) : String → String → Prop :=
  Relation.TransGen (DirectDep conf)

/-- Referential integrity (spec section 3 invariant on ServiceConfig):
every name referenced by a `depends` field is itself a configured service. -/
def RefInt (conf : Config) : Prop :=
  ∀ e ∈ edges conf, e.1 ∈ keys conf

/-- The dependency graph has no cycle. -/
def Acyclic (conf : Config) : Prop :=
  ∀ n, ¬ TransDep conf n n

/-- Position of the first occurrence of a name in a list (length when
absent). -/
def idxOf : List String → String → Nat
  | [], _ => 0
  | x :: xs, a => if x = a then 0 else idxOf xs a + 1

/-- `a` occurs strictly before `b` in the list `l`. -/
def precedes (l : List String) (a b : String) : Prop :=
  a ∈ l ∧ b ∈ l ∧ idxOf l a < idxOf l b

/-! ## Callback contracts and state invariants -/

/-- The callback contract of spec section 6: every start callback in the
registry returns a proper (non-null) runtime value whenever it returns at
all.  (A callback that throws satisfies this vacuously.) -/
def ValFns (fns : Fns) : Prop :=
  ∀ name entry, lookupA fns name = some entry →
    ∀ c dv r, entry.start c dv = Except.ok r → ∃ v, r = SVal.val v

/-- No start callback in the registry ever throws. -/
def NoThrowStart (fns : Fns) : Prop :=
  ∀ name entry, lookupA fns name = some entry →
    ∀ c dv, ∃ r, entry.start c dv = Except.ok r

/-- No registered stop callback ever throws. -/
def NoThrowStop (fns : Fns) : Prop :=
  ∀ name entry, lookupA fns name = some entry →
    ∀ f, entry.stop = some f → ∀ v dv, ∃ r, f v dv = Except.ok r

/-- Every configured service name has a behavior-registry entry. -/
def FnsTotal (conf : Config) (fns : Fns) : Prop :=
  ∀ k ∈ keys conf, (lookupA fns k).isSome = true

/-- Structural invariant of every constructed `System`: the service map
holds exactly the configured keys, in configuration order, and no slot
stores an explicit `undefined`. -/
def StateWF (st : SystemState) : Prop :=
  st._services.map Prod.fst = keys st.config ∧
  ∀ kv ∈ st._services, kv.2 ≠ SVal.undef

/-- How one lifecycle operation may take a state to another when the
start callbacks honour the value contract: the identity-like parts
(`config`, `_order`, `_fns`) are untouched, and each service slot is
either left unchanged or taken from `null` to a proper value. -/
def Evolves (st st' : SystemState) : Prop :=
  st'.config = st.config ∧ st'._order = st._order ∧ st'._fns = st._fns ∧
  ∀ n, lookupSVal st'._services n = lookupSVal st._services n ∨
    (lookupSVal st._services n = SVal.null ∧
      ∃ v, lookupSVal st'._services n = SVal.val v)

/-- `ready fuel st s`: the service `s` is configured, not currently
`null`, and all its direct dependencies are recursively ready — the
condition under which `startS fuel st s` is a complete no-op. -/
def ready : Nat → SystemState → String → Prop
  | 0, _, _ => False
  | Nat.succ fuel, st, s =>
    (lookupA st.config s).isSome = true ∧
    (∀ d ∈ dependsOn st.config s, ready fuel st d) ∧
    lookupSVal st._services s ≠ SVal.null

/-- Number of start-callback invocations of a given service recorded in a
trace. -/
def countStart (tr : List Event) (name : String) : Nat :=
  tr.countP (fun ev => match ev with
    | Event.startEv n _ => n == name
    | _ => false)

/-- The relation between a starting state and the outcome of a successful
start operation, per service: either the slot was untouched and no
start-callback invocation of it was recorded, or it was invoked exactly
once, taking the slot from `null` to a proper value. -/
def SlotCount (st : SystemState) (o : Outcome) (t : String) : Prop :=
  (countStart o.tr t = 0 ∧
    lookupSVal o.st._services t = lookupSVal st._services t) ∨
  (countStart o.tr t = 1 ∧ lookupSVal st._services t = SVal.null ∧
    ∃ v, lookupSVal o.st._services t = SVal.val v)

/-- Some configuration record contains a function value. -/
def hasFnField (conf : Config) : Bool :=
  conf.any (fun kv => kv.2.any (fun f => isFnField f.2))

/-! ## Concrete example systems (used to instantiate the theorems) -/

/-- The configuration of the composition scenario of spec section 8 and
of the repository test suite: `x`, `y` depending on `x`, and `sum`
depending on `x` and `y`. -/
def exConf : Config :=
  [("x", [("val", FieldVal.dataVal)]),
   ("y", [("val", FieldVal.dataVal), ("depends", FieldVal.depStr "x")]),
   ("sum", [("depends", FieldVal.depList ["x", "y"])])]

/-- Start callback of `x`: returns the value 1. -/
def exStartX : Config → List (String × SVal) → Except String SVal :=
  fun _ _ => Except.ok (SVal.val 1)

/-- Start callback of `y`: returns the value 2. -/
def exStartY : Config → List (String × SVal) → Except String SVal :=
  fun _ _ => Except.ok (SVal.val 2)

/-- Start callback of `sum`: adds the injected values of `x` and `y`. -/
def exStartSum : Config → List (String × SVal) → Except String SVal :=
  fun _ dv =>
    match lookupA dv "x", lookupA dv "y" with
    | some (SVal.val a), some (SVal.val b) => Except.ok (SVal.val (a + b))
    | _, _ => Except.ok (SVal.val 0)

/-- A stop callback that succeeds and returns a discarded value. -/
def exStopOk : SVal → List (String × SVal) → Except String SVal :=
  fun _ _ => Except.ok SVal.undef

/-- The behavior registry of the composition scenario; `sum` additionally
registers a stop callback. -/
def exFns : Fns :=
  [("x", ⟨exStartX, none⟩), ("y", ⟨exStartY, none⟩),
   ("sum", ⟨exStartSum, some exStopOk⟩)]

/-- The freshly constructed System of the composition scenario. -/
def exSys : SystemState :=
  { config := exConf, _order := ["x", "y", "sum"],
    _services := nullifyVals exConf, _fns := exFns }

/-- The composition System in a mixed state: `x` and `sum` running, `y`
stopped. -/
def exSysRun : SystemState :=
  { config := exConf, _order := ["x", "y", "sum"],
    _services := [("x", SVal.val 1), ("y", SVal.null),
                  ("sum", SVal.val 3)],
    _fns := exFns }

/-- A start callback that always throws. -/
def exStartBoom : Config → List (String × SVal) → Except String SVal :=
  fun _ _ => Except.error "boom"

/-- The composition registry with the `sum` start callback replaced by a
throwing one. -/
def exFnsBoom : Fns :=
  [("x", ⟨exStartX, none⟩), ("y", ⟨exStartY, none⟩),
   ("sum", ⟨exStartBoom, none⟩)]

/-- The composition System wired to the throwing `sum` callback. -/
def exSysBoom : SystemState :=
  { config := exConf, _order := ["x", "y", "sum"],
    _services := nullifyVals exConf, _fns := exFnsBoom }

/-- One-service configuration with no dependencies. -/
def nConf : Config := [("n", [])]

/-- A start callback that returns `null`. -/
def nStartNull : Config → List (String × SVal) → Except String SVal :=
  fun _ _ => Except.ok SVal.null

/-- Registry whose single start callback returns `null`. -/
def nFnsNull : Fns := [("n", ⟨nStartNull, none⟩)]

/-- System over `nConf` whose start callback returns `null`. -/
def nSysNull : SystemState :=
  { config := nConf, _order := ["n"],
    _services := nullifyVals nConf, _fns := nFnsNull }

/-- Two services depending on each other: the canonical cycle. -/
def cycConf : Config :=
  [("a", [("depends", FieldVal.depStr "b")]),
   ("b", [("depends", FieldVal.depStr "a")])]

/-- A trivial registry for the cycle example. -/
def cycFns : Fns :=
  [("a", ⟨fun _ _ => Except.ok (SVal.val 0), none⟩),
   ("b", ⟨fun _ _ => Except.ok (SVal.val 0), none⟩)]

/-- A single-service configuration whose record holds a function value
and a self-dependency: it both fails validation and contains a cycle. -/
def fnFieldCycConf : Config :=
  [("a", [("boom", FieldVal.fnVal), ("depends", FieldVal.depStr "a")])]

/-- A single-service acyclic configuration whose record holds a function
value. -/
def fnFieldConf : Config :=
  [("a", [("boom", FieldVal.fnVal)])]

/-- A registry for the single-service examples. -/
def aFns : Fns := [("a", ⟨fun _ _ => Except.ok (SVal.val 7), none⟩)]

/-- A System whose configuration has the key `a` but whose behavior
registry has no entry for it, with the service stopped. -/
def aNoFnsSys : SystemState :=
  { config := [("a", [])], _order := ["a"],
    _services := [("a", SVal.null)], _fns := [] }

theorem idxOf_cons_ne {x a : String} (xs : List String) (h : x ≠ a) :
    idxOf (x :: xs) a = idxOf xs a + 1 := by
  simp [idxOf, h]

theorem precedes_trans {l : List String} {a b c : String}
    (h1 : precedes l a b) (h2 : precedes l b c) : precedes l a c :=
  ⟨h1.1, h2.2.1, lt_trans h1.2.2 h2.2.2⟩

theorem precedes_irrefl (l : List String) (a : String) : ¬ precedes l a a :=
  fun h => lt_irrefl _ h.2.2

theorem precedes_cons {l : List String} {h a b : String}
    (ha : a ≠ h) (hb : b ≠ h) (hp : precedes l a b) :
    precedes (h :: l) a b := by
  refine ⟨List.mem_cons_of_mem _ hp.1, List.mem_cons_of_mem _ hp.2.1, ?_⟩
  rw [idxOf_cons_ne l ha.symm, idxOf_cons_ne l hb.symm]
  exact Nat.succ_lt_succ hp.2.2

theorem precedes_head {l : List String} {h b : String}
    (hb : b ≠ h) (hbl : b ∈ l) : precedes (h :: l) h b := by
  refine ⟨List.mem_cons_self _ _, List.mem_cons_of_mem _ hbl, ?_⟩
  rw [idxOf_cons_ne l hb.symm]
  simp [idxOf]

/-- A successful association-list read certifies membership. -/
theorem lookupA_mem {α : Type} {l : List (String × α)} {k : String} {v : α}
    (h : lookupA l k = some v) : (k, v) ∈ l := by
  obtain ⟨kv, hfind, hv⟩ := Option.map_eq_some'.mp h
  have hk : kv.1 = k := by simpa using List.find?_some hfind
  have hkv : kv = (k, v) := by
    cases kv
    simp only [Prod.mk.injEq]
    exact ⟨hk, hv⟩
  exact hkv ▸ List.mem_of_find?_eq_some hfind

/-- Membership in `edges conf` is exactly the direct-dependency relation. -/
theorem mem_edges {conf : Config} {a b : String} :
    (a, b) ∈ edges conf ↔ DirectDep conf a b := by
  constructor
  · intro h
    simp only [edges, List.mem_flatMap, depEdges, List.mem_map] at h
    obtain ⟨kv, hkv, d, hd, heq⟩ := h
    cases heq
    exact hd
  · intro h
    have hr : ∃ r, lookupA conf b = some r := by
      unfold DirectDep dependsOn at h
      cases hl : lookupA conf b with
      | some r => exact ⟨r, rfl⟩
      | none => rw [hl] at h; simp at h
    obtain ⟨r, hr⟩ := hr
    simp only [edges, List.mem_flatMap]
    refine ⟨(b, r), lookupA_mem hr, ?_⟩
    simp only [depEdges, List.mem_map]
    exact ⟨a, h, rfl⟩

/-- Every edge target is a configured service name. -/
theorem edges_snd_mem {conf : Config} {e : String × String}
    (h : e ∈ edges conf) : e.2 ∈ keys conf := by
  simp only [edges, List.mem_flatMap, depEdges, List.mem_map] at h
  obtain ⟨kv, hkv, d, _, heq⟩ := h
  subst heq
  exact List.mem_map_of_mem Prod.fst hkv

/-- A successful run of the sorting loop returns a permutation of the
vertex list. -/
theorem toposortGo_ok_perm :
    ∀ (fuel : Nat) (ns : List String) (es : List (String × String))
      (order : List String),
      toposortGo fuel ns es = Except.ok order → order.Perm ns := by
  intro fuel
  induction fuel with
  | zero =>
    intro ns es order h
    match ns with
    | [] =>
      simp only [toposortGo, Except.ok.injEq] at h
      exact h ▸ List.Perm.refl _
    | _ :: _ => exact Except.noConfusion h
  | succ fuel ih =>
    intro ns es order h
    match ns with
    | [] =>
      simp only [toposortGo, Except.ok.injEq] at h
      exact h ▸ List.Perm.refl _
    | n0 :: ns' =>
      simp only [toposortGo] at h
      split at h
      · exact Except.noConfusion h
      · next n hfind =>
        split at h
        · exact Except.noConfusion h
        · next rest hrec =>
          cases h
          have hmem : n ∈ n0 :: ns' := List.mem_of_find?_eq_some hfind
          exact ((ih _ _ _ hrec).cons n).trans (List.perm_cons_erase hmem).symm

/-- The vertex found by the selection step has no incoming edge. -/
theorem find?_no_incoming {ns : List String}
    {es : List (String × String)} {n : String}
    (h : ns.find? (fun n => (es.all (fun e => e.2 ≠ n))) = some n) :
    ∀ e ∈ es, e.2 ≠ n := by
  have := List.find?_some h
  simp only [List.all_eq_true, decide_eq_true_eq] at this
  exact this

/-- A successful sort places the source of every edge strictly before its
target. -/
theorem toposortGo_edge_precedes :
    ∀ (fuel : Nat) (ns : List String) (es : List (String × String))
      (order : List String) (d n : String),
      toposortGo fuel ns es = Except.ok order →
      (d, n) ∈ es → d ∈ ns → n ∈ ns → precedes order d n := by
  intro fuel
  induction fuel with
  | zero =>
    intro ns es order d n h he hd hn
    match ns with
    | [] => cases hd
    | _ :: _ => exact Except.noConfusion h
  | succ fuel ih =>
    intro ns es order d n h he hd hn
    match ns with
    | [] => cases hd
    | n0 :: ns' =>
      simp only [toposortGo] at h
      split at h
      · exact Except.noConfusion h
      · next m hfind =>
        split at h
        · exact Except.noConfusion h
        · next rest hrec =>
          cases h
          have hni : ∀ e ∈ es, e.2 ≠ m := find?_no_incoming hfind
          have hnm : n ≠ m := hni (d, n) he
          by_cases hdm : d = m
          · subst hdm
            have hnrest : n ∈ rest := by
              have : n ∈ (n0 :: ns').erase d := (List.mem_erase_of_ne hnm).mpr hn
              exact ((toposortGo_ok_perm _ _ _ _ hrec).mem_iff).mpr this
            exact precedes_head hnm hnrest
          · have hde : (d, n) ∈ es.filter (fun e => e.1 ≠ m) := by
              simp only [List.mem_filter, decide_eq_true_eq]
              exact ⟨he, hdm⟩
            have hdm' : d ∈ (n0 :: ns').erase m := (List.mem_erase_of_ne hdm).mpr hd
            have hnm' : n ∈ (n0 :: ns').erase m := (List.mem_erase_of_ne hnm).mpr hn
            exact precedes_cons hdm hnm (ih _ _ _ _ _ hrec hde hdm' hnm')

/-- The sorting loop fails only with the cyclic-dependency error. -/
theorem toposortGo_error_eq :
    ∀ (fuel : Nat) (ns : List String) (es : List (String × String))
      (e : JsError),
      toposortGo fuel ns es = Except.error e → e = JsError.cycleError := by
  intro fuel
  induction fuel with
  | zero =>
    intro ns es e h
    match ns with
    | [] => exact Except.noConfusion h
    | _ :: _ =>
      simp only [toposortGo, Except.error.injEq] at h
      exact h.symm
  | succ fuel ih =>
    intro ns es e h
    match ns with
    | [] => exact Except.noConfusion h
    | n0 :: ns' =>
      simp only [toposortGo] at h
      split at h
      · simp only [Except.error.injEq] at h
        exact h.symm
      · next m hfind =>
        split at h
        · next e' hrec =>
          cases h
          exact ih _ _ _ hrec
        · exact Except.noConfusion h

/-- In a finite acyclic graph whose edge sources all lie in a nonempty
vertex list, some vertex of the list has no incoming edge. -/
theorem exists_no_incoming (ns : List String) (es : List (String × String))
    (hend : ∀ e ∈ es, e.1 ∈ ns)
    (hacyc : ∀ n, ¬ Relation.TransGen (fun a b => (a, b) ∈ es) n n)
    (hne : ns ≠ []) :
    ∃ n ∈ ns, ∀ e ∈ es, e.2 ≠ n := by
  classical
  let r' : {x // x ∈ ns.toFinset} → {x // x ∈ ns.toFinset} → Prop :=
    fun a b => Relation.TransGen (fun u v => (u, v) ∈ es) a.1 b.1
  haveI : IsTrans _ r' := ⟨fun _ _ _ hab hbc => hab.trans hbc⟩
  haveI : IsIrrefl _ r' := ⟨fun a ha => hacyc a.1 ha⟩
  obtain ⟨n0, hn0⟩ := List.exists_mem_of_ne_nil ns hne
  have wf : WellFounded r' := Finite.wellFounded_of_trans_of_irrefl r'
  obtain ⟨m, -, hmin⟩ :=
    wf.has_min Set.univ ⟨⟨n0, List.mem_toFinset.mpr hn0⟩, trivial⟩
  refine ⟨m.1, List.mem_toFinset.mp m.2, ?_⟩
  intro e he hcontra
  have hsrc : e.1 ∈ ns := hend e he
  have hedge : (e.1, m.1) ∈ es := by
    have : e = (e.1, e.2) := rfl
    rw [this, hcontra] at he
    exact he
  exact hmin ⟨e.1, List.mem_toFinset.mpr hsrc⟩ trivial
    (Relation.TransGen.single hedge)

/-- On an acyclic graph whose edge endpoints lie in the vertex list, the
sorting loop succeeds whenever the fuel covers the vertex count (one
vertex is removed per step). -/
theorem toposortGo_ok_of_acyclic :
    ∀ (fuel : Nat) (ns : List String) (es : List (String × String)),
      (∀ e ∈ es, e.1 ∈ ns ∧ e.2 ∈ ns) →
      (∀ n, ¬ Relation.TransGen (fun a b => (a, b) ∈ es) n n) →
      ns.length ≤ fuel →
      ∃ order, toposortGo fuel ns es = Except.ok order := by
  intro fuel
  induction fuel with
  | zero =>
    intro ns es _ _ hlen
    match ns with
    | [] => exact ⟨[], rfl⟩
    | _ :: _ => simp at hlen
  | succ fuel ih =>
    intro ns es hend hacyc hlen
    match ns with
    | [] => exact ⟨[], rfl⟩
    | n0 :: ns' =>
      obtain ⟨m, hm, hmni⟩ := exists_no_incoming (n0 :: ns') es
        (fun e he => (hend e he).1) hacyc (by simp)
      have hfind : ∃ n, (n0 :: ns').find?
          (fun n => (es.all (fun e => e.2 ≠ n))) = some n := by
        have : ((n0 :: ns').find?
            (fun n => (es.all (fun e => e.2 ≠ n)))).isSome := by
          rw [List.find?_isSome]
          refine ⟨m, hm, ?_⟩
          simp only [List.all_eq_true, decide_eq_true_eq]
          exact hmni
        exact Option.isSome_iff_exists.mp this
      obtain ⟨n, hn⟩ := hfind
      have hnmem : n ∈ n0 :: ns' := List.mem_of_find?_eq_some hn
      have hnni : ∀ e ∈ es, e.2 ≠ n := find?_no_incoming hn
      have hend' : ∀ e ∈ es.filter (fun e => e.1 ≠ n),
          e.1 ∈ (n0 :: ns').erase n ∧ e.2 ∈ (n0 :: ns').erase n := by
        intro e he
        rw [List.mem_filter] at he
        obtain ⟨hees, hne1⟩ := he
        rw [decide_eq_true_eq] at hne1
        exact ⟨(List.mem_erase_of_ne hne1).mpr (hend e hees).1,
          (List.mem_erase_of_ne (hnni e hees)).mpr (hend e hees).2⟩
      have hacyc' : ∀ x, ¬ Relation.TransGen
          (fun a b => (a, b) ∈ es.filter (fun e => e.1 ≠ n)) x x := by
        intro x hx
        exact hacyc x (hx.mono (fun a b hab => (List.mem_filter.mp hab).1))
      have hlen' : ((n0 :: ns').erase n).length ≤ fuel := by
        rw [List.length_erase_of_mem hnmem]
        simpa using Nat.le_of_succ_le_succ hlen
      obtain ⟨order', hord⟩ := ih _ _ hend' hacyc' hlen'
      refine ⟨n :: order', ?_⟩
      simp only [toposortGo, hn, hord]

/-- A successful `sortDeps` run implies every edge endpoint was a known
vertex (the unknown-node check passed). -/
theorem sortDeps_ok_endpoints {conf : Config} {order : List String}
    (h : sortDeps conf = Except.ok order) :
    ∀ e ∈ edges conf, e.1 ∈ keys conf ∧ e.2 ∈ keys conf := by
  unfold sortDeps toposortArray at h
  split at h
  · next hall =>
    intro e he
    have := (List.all_eq_true.mp hall) e he
    rw [Bool.and_eq_true] at this
    exact ⟨List.elem_iff.mp this.1, List.elem_iff.mp this.2⟩
  · exact Except.noConfusion h

/-- A successful `sortDeps` run used the loop on the full key list. -/
theorem sortDeps_ok_go {conf : Config} {order : List String}
    (h : sortDeps conf = Except.ok order) :
    toposortGo (keys conf).length (keys conf) (edges conf) =
      Except.ok order := by
  unfold sortDeps toposortArray at h
  split at h
  · exact h
  · exact Except.noConfusion h

/-- The order produced by `sortDeps` is a permutation of the service
names. -/
theorem sortDeps_ok_perm {conf : Config} {order : List String}
    (h : sortDeps conf = Except.ok order) : order.Perm (keys conf) :=
  toposortGo_ok_perm _ _ _ _ (sortDeps_ok_go h)

/-- A successful `sortDeps` places every direct dependency strictly
before its dependent. -/
theorem sortDeps_direct_precedes {conf : Config} {order : List String}
    (h : sortDeps conf = Except.ok order) {a b : String}
    (hd : DirectDep conf a b) : precedes order a b := by
  have he : (a, b) ∈ edges conf := mem_edges.mpr hd
  have hend := sortDeps_ok_endpoints h (a, b) he
  exact toposortGo_edge_precedes _ _ _ _ _ _ (sortDeps_ok_go h) he
    hend.1 hend.2

/-- A successful `sortDeps` places every dependency, direct or
transitive, strictly before its dependent. -/
theorem sortDeps_trans_precedes {conf : Config} {order : List String}
    (h : sortDeps conf = Except.ok order) {a b : String}
    (hd : TransDep conf a b) : precedes order a b := by
  induction hd with
  | single hab => exact sortDeps_direct_precedes h hab
  | tail _ hbc ih => exact precedes_trans ih (sortDeps_direct_precedes h hbc)

/-- A configuration whose sort succeeds is acyclic. -/
theorem acyclic_of_sortDeps_ok {conf : Config} {order : List String}
    (h : sortDeps conf = Except.ok order) : Acyclic conf :=
  fun n hn => precedes_irrefl order n (sortDeps_trans_precedes h hn)

/-- On an acyclic configuration with referential integrity, `sortDeps`
succeeds. -/
theorem sortDeps_ok_of_acyclic {conf : Config} (hacyc : Acyclic conf)
    (href : RefInt conf) :
    ∃ order, sortDeps conf = Except.ok order := by
  have hend : ∀ e ∈ edges conf, e.1 ∈ keys conf ∧ e.2 ∈ keys conf :=
    fun e he => ⟨href e he, edges_snd_mem he⟩
  have hacyc' : ∀ n, ¬ Relation.TransGen
      (fun a b => (a, b) ∈ edges conf) n n := by
    intro n hn
    exact hacyc n (hn.mono (fun a b hab => mem_edges.mp hab))
  obtain ⟨order, hord⟩ := toposortGo_ok_of_acyclic (keys conf).length
    (keys conf) (edges conf) hend hacyc' (le_refl _)
  refine ⟨order, ?_⟩
  have hall : ((edges conf).all
      (fun e => (keys conf).contains e.1 && (keys conf).contains e.2)) = true := by
    rw [List.all_eq_true]
    intro e he
    rw [Bool.and_eq_true]
    exact ⟨List.elem_iff.mpr (hend e he).1, List.elem_iff.mpr (hend e he).2⟩
  unfold keys at hord hall
  unfold sortDeps toposortArray
  rw [hall]
  simpa using hord

/-- On a configuration with referential integrity whose graph has a
cycle, `sortDeps` fails with the cyclic-dependency error. -/
theorem sortDeps_cycle_error {conf : Config} (href : RefInt conf)
    (hcyc : ∃ n, TransDep conf n n) :
    sortDeps conf = Except.error JsError.cycleError := by
  match hres : sortDeps conf with
  | Except.ok order =>
    obtain ⟨n, hn⟩ := hcyc
    exact absurd hn (acyclic_of_sortDeps_ok hres n)
  | Except.error e =>
    have : e = JsError.cycleError := by
      unfold sortDeps toposortArray at hres
      split at hres
      · exact toposortGo_error_eq _ _ _ _ hres
      · next hall =>
        exfalso
        apply hall
        rw [List.all_eq_true]
        intro e' he'
        rw [Bool.and_eq_true]
        exact ⟨List.elem_iff.mpr (href e' he'),
          List.elem_iff.mpr (edges_snd_mem he')⟩
    rw [this]

/-! ## Association-list primitives -/

theorem lookupA_setA {α : Type} :
    ∀ (l : List (String × α)) (k : String) (v : α) (n : String),
      lookupA (setA l k v) n = if n = k then some v else lookupA l n := by
  intro l k v
  induction l with
  | nil =>
    intro n
    by_cases h : n = k
    · subst h
      simp [setA, lookupA]
    · have hk : (k == n) = false :=
        beq_eq_false_iff_ne.mpr (fun e => h e.symm)
      simp [setA, lookupA, List.find?, hk, h]
  | cons kv rest ih =>
    intro n
    by_cases hk : kv.1 = k
    · by_cases hn : n = k
      · subst hn
        simp [setA, hk, lookupA, List.find?]
      · have h1 : (k == n) = false :=
          beq_eq_false_iff_ne.mpr (fun e => hn e.symm)
        have h2 : (kv.1 == n) = false := by rw [hk]; exact h1
        simp [setA, hk, lookupA, List.find?, h1, h2, hn]
    · by_cases hn : n = kv.1
      · have hnk : n ≠ k := fun e => hk ((hn.symm.trans e) ▸ rfl)
        have h1 : (kv.1 == n) = true := by rw [beq_iff_eq]; exact hn.symm
        simp [setA, hk, lookupA, List.find?, h1, hnk]
      · have h1 : (kv.1 == n) = false :=
          beq_eq_false_iff_ne.mpr (fun e => hn e.symm)
        simp only [setA, if_neg hk]
        have hL : lookupA (kv :: setA rest k v) n = lookupA (setA rest k v) n := by
          simp [lookupA, List.find?, h1]
        have hR : lookupA (kv :: rest) n = lookupA rest n := by
          simp [lookupA, List.find?, h1]
        rw [hL, hR, ih n]

theorem lookupSVal_setA (sv : List (String × SVal)) (k : String) (v : SVal)
    (n : String) :
    lookupSVal (setA sv k v) n = if n = k then v else lookupSVal sv n := by
  unfold lookupSVal
  rw [lookupA_setA]
  by_cases h : n = k
  · simp [h]
  · simp [h]

theorem mem_keys_of_lookupA {α : Type} {l : List (String × α)} {k : String}
    {v : α} (h : lookupA l k = some v) : k ∈ l.map Prod.fst := by
  have := lookupA_mem h
  exact List.mem_map_of_mem Prod.fst this

theorem lookupA_isSome_of_mem_keys {α : Type} {l : List (String × α)}
    {k : String} (h : k ∈ l.map Prod.fst) : ∃ v, lookupA l k = some v := by
  induction l with
  | nil => simp at h
  | cons kv rest ih =>
    by_cases hk : kv.1 = k
    · refine ⟨kv.2, ?_⟩
      simp [lookupA, List.find?, hk]
    · have : k ∈ rest.map Prod.fst := by
        rcases List.mem_cons.mp h with h1 | h1
        · exact absurd h1.symm hk
        · exact h1
      obtain ⟨v, hv⟩ := ih this
      refine ⟨v, ?_⟩
      have hkvn : (kv.1 == k) = false := beq_eq_false_iff_ne.mpr hk
      simp only [lookupA, List.find?, hkvn]
      simpa [lookupA] using hv

theorem setA_map_fst {α : Type} :
    ∀ (l : List (String × α)) (k : String) (v : α),
      k ∈ l.map Prod.fst → (setA l k v).map Prod.fst = l.map Prod.fst := by
  intro l k v
  induction l with
  | nil => intro h; simp at h
  | cons kv rest ih =>
    intro h
    by_cases hk : kv.1 = k
    · simp [setA, hk]
    · have : k ∈ rest.map Prod.fst := by
        rcases List.mem_cons.mp h with h1 | h1
        · exact absurd h1.symm hk
        · exact h1
      simp [setA, hk, ih this]

theorem setA_mem_cases {α : Type} :
    ∀ (l : List (String × α)) (k : String) (v : α) (kv : String × α),
      kv ∈ setA l k v → kv = (k, v) ∨ kv ∈ l := by
  intro l k v
  induction l with
  | nil =>
    intro kv h
    simp [setA] at h
    exact Or.inl h
  | cons kv0 rest ih =>
    intro kv h
    by_cases hk : kv0.1 = k
    · simp only [setA, if_pos hk] at h
      rcases List.mem_cons.mp h with h1 | h1
      · exact Or.inl h1
      · exact Or.inr (List.mem_cons_of_mem _ h1)
    · simp only [setA, if_neg hk] at h
      rcases List.mem_cons.mp h with h1 | h1
      · exact Or.inr (h1 ▸ List.mem_cons_self _ _)
      · rcases ih kv h1 with h2 | h2
        · exact Or.inl h2
        · exact Or.inr (List.mem_cons_of_mem _ h2)

theorem mem_eq_lookupA_of_nodup {α : Type} :
    ∀ {l : List (String × α)}, (l.map Prod.fst).Nodup →
      ∀ {k : String} {v : α}, (k, v) ∈ l → lookupA l k = some v := by
  intro l
  induction l with
  | nil => intro _ k v h; simp at h
  | cons kv rest ih =>
    intro hnd k v h
    rw [List.map_cons, List.nodup_cons] at hnd
    rcases List.mem_cons.mp h with h1 | h1
    · rw [← h1]
      simp [lookupA, List.find?]
    · have hk : kv.1 ≠ k := by
        intro he
        exact hnd.1 (he ▸ List.mem_map_of_mem Prod.fst h1)
      have hkvn : (kv.1 == k) = false := beq_eq_false_iff_ne.mpr hk
      simp only [lookupA, List.find?, hkvn]
      simpa [lookupA] using ih hnd.2 h1

theorem nullifyVals_map_fst (conf : Config) :
    (nullifyVals conf).map Prod.fst = keys conf := by
  simp [nullifyVals, keys]

theorem lookupSVal_nullifyVals {conf : Config} {k : String}
    (hk : k ∈ keys conf) : lookupSVal (nullifyVals conf) k = SVal.null := by
  induction conf with
  | nil => simp [keys] at hk
  | cons kv rest ih =>
    by_cases h : kv.1 = k
    · simp [nullifyVals, lookupSVal, lookupA, List.find?, h]
    · have hkvn : (kv.1 == k) = false := beq_eq_false_iff_ne.mpr h
      have hk' : k ∈ keys rest := by
        rcases List.mem_cons.mp hk with h1 | h1
        · exact absurd h1.symm h
        · exact h1
      simp only [nullifyVals, List.map_cons, lookupSVal, lookupA, List.find?,
        hkvn]
      have := ih hk'
      simp only [lookupSVal, lookupA, nullifyVals] at this
      exact this

theorem lookupA_collectDeps (sv : List (String × SVal)) :
    ∀ (deps : List String) (acc : List (String × SVal)) (d : String),
      lookupA (deps.foldl
        (fun acc dep => setA acc dep (lookupSVal sv dep)) acc) d =
        if d ∈ deps then some (lookupSVal sv d) else lookupA acc d := by
  intro deps
  induction deps with
  | nil => intro acc d; simp
  | cons d0 rest ih =>
    intro acc d
    rw [List.foldl_cons, ih]
    by_cases hd : d ∈ rest
    · simp [hd]
    · rw [if_neg hd, lookupA_setA]
      by_cases h0 : d = d0
      · subst h0
        simp
      · have : ¬ d ∈ d0 :: rest := by
          intro hc
          rcases List.mem_cons.mp hc with h1 | h1
          · exact h0 h1
          · exact hd h1
        simp [h0, this]

theorem collectDeps_mem_lookup {deps : List String}
    {sv : List (String × SVal)} {d : String} (hd : d ∈ deps) :
    lookupA (collectDeps deps sv) d = some (lookupSVal sv d) := by
  unfold collectDeps
  rw [lookupA_collectDeps sv deps [] d, if_pos hd]

/-! ## The evolution relation -/

theorem evolves_refl (st : SystemState) : Evolves st st :=
  ⟨rfl, rfl, rfl, fun _ => Or.inl rfl⟩

theorem evolves_trans {a b c : SystemState}
    (h1 : Evolves a b) (h2 : Evolves b c) : Evolves a c := by
  refine ⟨h2.1.trans h1.1, h2.2.1.trans h1.2.1, h2.2.2.1.trans h1.2.2.1, ?_⟩
  intro n
  rcases h2.2.2.2 n with hc | ⟨hbnull, v, hcv⟩
  · rcases h1.2.2.2 n with hb | ⟨hanull, w, hbw⟩
    · exact Or.inl (hc.trans hb)
    · exact Or.inr ⟨hanull, w, hc.trans hbw⟩
  · rcases h1.2.2.2 n with hb | ⟨hanull, w, hbw⟩
    · exact Or.inr ⟨hb.symm.trans hbnull, v, hcv⟩
    · rw [hbw] at hbnull
      exact absurd hbnull (by simp)

theorem evolves_val_stable {a b : SystemState} (h : Evolves a b) {n : String}
    {v : Int} (hv : lookupSVal a._services n = SVal.val v) :
    lookupSVal b._services n = SVal.val v := by
  rcases h.2.2.2 n with hb | ⟨hanull, _, _⟩
  · exact hb.trans hv
  · rw [hv] at hanull
    exact absurd hanull (by simp)

theorem evolves_not_null {a b : SystemState} (h : Evolves a b) {n : String}
    (hn : lookupSVal a._services n ≠ SVal.null) :
    lookupSVal b._services n ≠ SVal.null := by
  rcases h.2.2.2 n with hb | ⟨hanull, v, hbv⟩
  · exact hb ▸ hn
  · rw [hbv]
    simp

/-! ## Sequencing lemmas for `runEach` -/

theorem runEach_cons_err' {f : SystemState → String → Outcome}
    {st : SystemState} {d : String} {ds : List String} {e : JsError}
    (h : (f st d).err = some e) :
    runEach f st (d :: ds) =
      { err := some e, st := (f st d).st, tr := (f st d).tr } := by
  simp only [runEach]
  split
  · next e' heq =>
    rw [heq] at h
    cases h
    rfl
  · next heq => rw [heq] at h; cases h

theorem runEach_cons_ok {f : SystemState → String → Outcome}
    {st : SystemState} {d : String} {ds : List String}
    (h : (f st d).err = none) :
    runEach f st (d :: ds) =
      { err := (runEach f (f st d).st ds).err,
        st := (runEach f (f st d).st ds).st,
        tr := (f st d).tr ++ (runEach f (f st d).st ds).tr } := by
  simp only [runEach]
  split
  · next e' heq => rw [heq] at h; cases h
  · rfl

theorem runEach_cons_parts {f : SystemState → String → Outcome}
    {st : SystemState} {d : String} {ds : List String}
    (h : (runEach f st (d :: ds)).err = none) :
    (f st d).err = none ∧ (runEach f (f st d).st ds).err = none := by
  cases he : (f st d).err with
  | some e => rw [runEach_cons_err' he] at h; cases h
  | none =>
    rw [runEach_cons_ok he] at h
    exact ⟨rfl, h⟩

/-! ## Evolution and well-formedness preservation of start -/

theorem runEach_evolves {f : SystemState → String → Outcome}
    (hf : ∀ st d, ValFns st._fns → Evolves st (f st d).st) :
    ∀ (ds : List String) (st : SystemState), ValFns st._fns →
      Evolves st (runEach f st ds).st := by
  intro ds
  induction ds with
  | nil => intro st _; exact evolves_refl st
  | cons d ds ih =>
    intro st hval
    have h1 : Evolves st (f st d).st := hf st d hval
    cases he : (f st d).err with
    | some e => rw [runEach_cons_err' he]; exact h1
    | none =>
      rw [runEach_cons_ok he]
      have hval' : ValFns (f st d).st._fns := by rw [h1.2.2.1]; exact hval
      exact evolves_trans h1 (ih (f st d).st hval')

theorem startS_evolves :
    ∀ (fuel : Nat) (st : SystemState) (s : String), ValFns st._fns →
      Evolves st (startS fuel st s).st := by
  intro fuel
  induction fuel with
  | zero => intro st s _; exact evolves_refl st
  | succ fuel ih =>
    intro st s hval
    simp only [startS]
    split
    · exact evolves_refl st
    · next r hr =>
      have h1 : Evolves st
          (runEach (startS fuel) st (dependsOn st.config s)).st :=
        runEach_evolves (fun st' d hv => ih st' d hv) _ st hval
      split
      · exact h1
      · next herr =>
        split
        · next hnull =>
          split
          · exact h1
          · next entry hentry =>
            split
            · exact h1
            · next v hcb =>
              refine evolves_trans h1 ⟨rfl, rfl, rfl, ?_⟩
              intro n
              dsimp only
              rw [lookupSVal_setA]
              by_cases hn : n = s
              · rw [if_pos hn, hn]
                refine Or.inr ⟨hnull, ?_⟩
                have hvalo : ValFns (runEach (startS fuel) st
                    (dependsOn st.config s)).st._fns := by
                  rw [h1.2.2.1]; exact hval
                obtain ⟨w, hw⟩ := hvalo s entry hentry _ _ v hcb
                exact ⟨w, by rw [hw]⟩
              · rw [if_neg hn]
                exact Or.inl rfl
        · exact h1

theorem runEach_wf {f : SystemState → String → Outcome}
    (hf : ∀ st d, ValFns st._fns → StateWF st → StateWF (f st d).st)
    (hev : ∀ st d, ValFns st._fns → Evolves st (f st d).st) :
    ∀ (ds : List String) (st : SystemState), ValFns st._fns → StateWF st →
      StateWF (runEach f st ds).st := by
  intro ds
  induction ds with
  | nil => intro st _ hwf; exact hwf
  | cons d ds ih =>
    intro st hval hwf
    cases he : (f st d).err with
    | some e => rw [runEach_cons_err' he]; exact hf st d hval hwf
    | none =>
      rw [runEach_cons_ok he]
      have hval' : ValFns (f st d).st._fns := by
        rw [(hev st d hval).2.2.1]; exact hval
      exact ih (f st d).st hval' (hf st d hval hwf)

theorem startS_wf :
    ∀ (fuel : Nat) (st : SystemState) (s : String), ValFns st._fns →
      StateWF st → StateWF (startS fuel st s).st := by
  intro fuel
  induction fuel with
  | zero => intro st s _ hwf; exact hwf
  | succ fuel ih =>
    intro st s hval hwf
    have h1 : Evolves st
        (runEach (startS fuel) st (dependsOn st.config s)).st :=
      runEach_evolves (fun st' d hv => startS_evolves fuel st' d hv) _ st hval
    have hwf1 : StateWF (runEach (startS fuel) st (dependsOn st.config s)).st :=
      runEach_wf (fun st' d hv hw => ih st' d hv hw)
        (fun st' d hv => startS_evolves fuel st' d hv) _ st hval hwf
    simp only [startS]
    split
    · exact hwf
    · next r hr =>
      split
      · exact hwf1
      · next herr =>
        split
        · next hnull =>
          split
          · exact hwf1
          · next entry hentry =>
            split
            · exact hwf1
            · next v hcb =>
              have hvalo : ValFns (runEach (startS fuel) st
                  (dependsOn st.config s)).st._fns := by
                rw [h1.2.2.1]; exact hval
              obtain ⟨w, hw⟩ := hvalo s entry hentry _ _ v hcb
              have hsmem : s ∈ (runEach (startS fuel) st
                  (dependsOn st.config s)).st._services.map Prod.fst := by
                rw [hwf1.1, h1.1]
                exact mem_keys_of_lookupA hr
              constructor
              · show (setA (runEach (startS fuel) st
                    (dependsOn st.config s)).st._services s v).map Prod.fst = _
                rw [setA_map_fst _ _ _ hsmem]
                exact hwf1.1
              · intro kv hkv
                rcases setA_mem_cases _ _ _ _ hkv with h2 | h2
                · rw [h2, hw]
                  simp
                · exact hwf1.2 kv h2
        · exact hwf1

/-! ## Post-conditions of a successful start -/

theorem slot_val_of_not_null {st : SystemState} {s : String}
    (hwf : StateWF st) (hs : s ∈ keys st.config)
    (hnn : lookupSVal st._services s ≠ SVal.null) :
    ∃ v, lookupSVal st._services s = SVal.val v := by
  have hmem : s ∈ st._services.map Prod.fst := by rw [hwf.1]; exact hs
  obtain ⟨v, hv⟩ := lookupA_isSome_of_mem_keys hmem
  have hvu : v ≠ SVal.undef := hwf.2 (s, v) (lookupA_mem hv)
  have hls : lookupSVal st._services s = v := by unfold lookupSVal; rw [hv]
  cases v with
  | undef => exact absurd rfl hvu
  | null => exact absurd hls hnn
  | val w => exact ⟨w, hls⟩

theorem evolves_setA {st : SystemState} {s : String} (w : Int)
    (hnull : lookupSVal st._services s = SVal.null) :
    Evolves st { st with _services := setA st._services s (SVal.val w) } := by
  refine ⟨rfl, rfl, rfl, ?_⟩
  intro n
  show lookupSVal (setA st._services s (SVal.val w)) n = _ ∨ _
  rw [lookupSVal_setA]
  by_cases hn : n = s
  · rw [if_pos hn, hn]
    exact Or.inr ⟨hnull, w, rfl⟩
  · rw [if_neg hn]
    exact Or.inl rfl

theorem startS_ok_not_null :
    ∀ (fuel : Nat) (st : SystemState) (s : String) (o : Outcome),
      startS fuel st s = o → ValFns st._fns → o.err = none →
      lookupSVal o.st._services s ≠ SVal.null := by
  intro fuel st s o ho hval hok
  cases fuel with
  | zero =>
    subst ho
    cases hok
  | succ fuel =>
    simp only [startS] at ho
    split at ho
    · subst ho; cases hok
    · next r hr =>
      split at ho
      · subst ho; cases hok
      · next herr =>
        split at ho
        · next hnull =>
          split at ho
          · subst ho; cases hok
          · next entry hentry =>
            split at ho
            · subst ho; cases hok
            · next v hcb =>
              subst ho
              dsimp only
              rw [lookupSVal_setA, if_pos rfl]
              have hvalo : ValFns (runEach (startS fuel) st
                  (dependsOn st.config s)).st._fns := by
                rw [(runEach_evolves (fun st' d hv =>
                  startS_evolves fuel st' d hv) _ st hval).2.2.1]
                exact hval
              obtain ⟨w, hw⟩ := hvalo s entry hentry _ _ v hcb
              rw [hw]
              simp
        · next hnnull =>
          subst ho
          exact hnnull

theorem startS_ok_val :
    ∀ (fuel : Nat) (st : SystemState) (s : String) (o : Outcome),
      startS fuel st s = o → ValFns st._fns → StateWF st → o.err = none →
      ∃ v, lookupSVal o.st._services s = SVal.val v := by
  intro fuel st s o ho hval hwf hok
  have hnn : lookupSVal o.st._services s ≠ SVal.null :=
    startS_ok_not_null fuel st s o ho hval hok
  have hwf' : StateWF o.st := by
    rw [← ho]
    exact startS_wf fuel st s hval hwf
  have hs : s ∈ keys o.st.config := by
    cases fuel with
    | zero => subst ho; cases hok
    | succ fuel =>
      have hconf : o.st.config = st.config := by
        rw [← ho]
        exact (startS_evolves (fuel + 1) st s hval).1
      rw [hconf]
      simp only [startS] at ho
      split at ho
      · subst ho; cases hok
      · next r hr => exact mem_keys_of_lookupA hr
  exact slot_val_of_not_null hwf' hs hnn

/-! ## Invocation counting -/

theorem countStart_append (a b : List Event) (t : String) :
    countStart (a ++ b) t = countStart a t + countStart b t := by
  unfold countStart
  exact List.countP_append _ _ _

theorem countStart_nil (t : String) : countStart [] t = 0 := rfl

theorem countStart_startEv (s t : String) (args : List (String × SVal)) :
    countStart [Event.startEv s args] t = if s = t then 1 else 0 := by
  unfold countStart
  by_cases h : s = t
  · simp [List.countP, List.countP.go, h]
  · have hb : (s == t) = false := beq_eq_false_iff_ne.mpr h
    simp [List.countP, List.countP.go, hb, h]

theorem runEach_slotCount {f : SystemState → String → Outcome}
    (hf : ∀ st d o, f st d = o → ValFns st._fns → o.err = none →
      ∀ t, SlotCount st o t)
    (hev : ∀ st d, ValFns st._fns → Evolves st (f st d).st) :
    ∀ (ds : List String) (st : SystemState), ValFns st._fns →
      (runEach f st ds).err = none →
      ∀ t, SlotCount st (runEach f st ds) t := by
  intro ds
  induction ds with
  | nil =>
    intro st _ _ t
    exact Or.inl ⟨rfl, rfl⟩
  | cons d ds ih =>
    intro st hval hok t
    obtain ⟨h1, h2⟩ := runEach_cons_parts hok
    rw [runEach_cons_ok h1] at hok ⊢
    dsimp only at hok ⊢
    have hval' : ValFns (f st d).st._fns := by
      rw [(hev st d hval).2.2.1]; exact hval
    have S1 := hf st d (f st d) rfl hval h1 t
    have S2 := ih (f st d).st hval' h2 t
    unfold SlotCount at S1 S2 ⊢
    dsimp only at S1 S2 ⊢
    rw [countStart_append]
    rcases S1 with ⟨c1, e1⟩ | ⟨c1, n1, v1, e1⟩
    · rcases S2 with ⟨c2, e2⟩ | ⟨c2, n2, v2, e2⟩
      · exact Or.inl ⟨by rw [c1, c2], e2.trans e1⟩
      · exact Or.inr ⟨by rw [c1, c2], e1 ▸ n2, v2, e2⟩
    · rcases S2 with ⟨c2, e2⟩ | ⟨c2, n2, v2, e2⟩
      · exact Or.inr ⟨by rw [c1, c2], n1, v1, e2.trans e1⟩
      · rw [e1] at n2
        cases n2

theorem startS_slotCount :
    ∀ (fuel : Nat) (st : SystemState) (s : String) (o : Outcome),
      startS fuel st s = o → ValFns st._fns → o.err = none →
      ∀ t, SlotCount st o t := by
  intro fuel
  induction fuel with
  | zero =>
    intro st s o ho _ hok
    subst ho
    cases hok
  | succ fuel ih =>
    intro st s o ho hval hok t
    simp only [startS] at ho
    split at ho
    · subst ho; cases hok
    · next r hr =>
      have hS1 : (runEach (startS fuel) st (dependsOn st.config s)).err =
          none → SlotCount st
            (runEach (startS fuel) st (dependsOn st.config s)) t :=
        fun he => runEach_slotCount
          (fun st' d o' ho' hv' hok' => ih st' d o' ho' hv' hok')
          (fun st' d hv => startS_evolves fuel st' d hv)
          _ st hval he t
      split at ho
      · subst ho; cases hok
      · next herr =>
        split at ho
        · next hnull =>
          split at ho
          · subst ho; cases hok
          · next entry hentry =>
            split at ho
            · subst ho; cases hok
            · next v hcb =>
              subst ho
              have S1 := hS1 herr
              have hvalo : ValFns (runEach (startS fuel) st
                  (dependsOn st.config s)).st._fns := by
                rw [(runEach_evolves (fun st' d hv =>
                  startS_evolves fuel st' d hv) _ st hval).2.2.1]
                exact hval
              obtain ⟨w, hw⟩ := hvalo s entry hentry _ _ v hcb
              unfold SlotCount at S1 ⊢
              dsimp only at S1 ⊢
              rw [countStart_append, countStart_startEv, lookupSVal_setA]
              by_cases ht : t = s
              · subst t
                rw [if_pos rfl, if_pos rfl, hw]
                rcases S1 with ⟨c1, e1⟩ | ⟨c1, n1, v1, e1⟩
                · exact Or.inr ⟨by rw [c1], e1.symm.trans hnull, w, rfl⟩
                · rw [hnull] at e1
                  cases e1
              · rw [if_neg (fun h => ht h.symm), if_neg ht]
                rw [Nat.add_zero]
                exact S1
        · next hnnull =>
          subst ho
          exact hS1 herr

theorem startS_count_one :
    ∀ (fuel : Nat) (st : SystemState) (s : String) (o : Outcome),
      startS fuel st s = o → ValFns st._fns → o.err = none →
      lookupSVal st._services s = SVal.null →
      countStart o.tr s = 1 := by
  intro fuel st s o ho hval hok hnull
  have hS := startS_slotCount fuel st s o ho hval hok s
  rcases hS with ⟨hc, heq⟩ | ⟨hc, _⟩
  · exfalso
    exact startS_ok_not_null fuel st s o ho hval hok (heq.trans hnull)
  · exact hc

/-! ## Idempotence: readiness and the no-op second run -/

theorem ready_mono :
    ∀ (fuel : Nat) (st st' : SystemState) (s : String),
      Evolves st st' → ready fuel st s → ready fuel st' s := by
  intro fuel
  induction fuel with
  | zero => intro st st' s _ h; exact h.elim
  | succ fuel ih =>
    intro st st' s hev h
    obtain ⟨hc, hdeps, hnn⟩ := h
    refine ⟨?_, ?_, ?_⟩
    · rw [hev.1]; exact hc
    · intro d hd
      rw [hev.1] at hd
      exact ih st st' d hev (hdeps d hd)
    · exact evolves_not_null hev hnn

theorem runEach_noop {f : SystemState → String → Outcome} :
    ∀ (ds : List String) (st : SystemState),
      (∀ d ∈ ds, f st d = { err := none, st := st, tr := [] }) →
      runEach f st ds = { err := none, st := st, tr := [] } := by
  intro ds
  induction ds with
  | nil => intro st _; rfl
  | cons d ds ih =>
    intro st h
    have h0 : f st d = { err := none, st := st, tr := [] } :=
      h d (List.mem_cons_self d ds)
    have hrest : runEach f st ds = { err := none, st := st, tr := [] } :=
      ih st (fun d' hd' => h d' (List.mem_cons_of_mem _ hd'))
    rw [runEach_cons_ok (by rw [h0]), h0]
    dsimp only
    rw [hrest]
    rfl

theorem startS_noop :
    ∀ (fuel : Nat) (st : SystemState) (s : String), ready fuel st s →
      startS fuel st s = { err := none, st := st, tr := [] } := by
  intro fuel
  induction fuel with
  | zero => intro st s h; exact h.elim
  | succ fuel ih =>
    intro st s h
    obtain ⟨hc, hdeps, hnn⟩ := h
    obtain ⟨r, hr⟩ := Option.isSome_iff_exists.mp hc
    have hall : runEach (startS fuel) st (dependsOn st.config s) =
        { err := none, st := st, tr := [] } :=
      runEach_noop _ st (fun d hd => ih st d (hdeps d hd))
    simp only [startS]
    split
    · next hnone => rw [hnone] at hr; cases hr
    · next r' hr' =>
      rw [hall]
      dsimp only
      rw [if_neg hnn]

theorem runEach_post_all {f : SystemState → String → Outcome}
    {P : SystemState → String → Prop}
    (hf : ∀ st d, ValFns st._fns → (f st d).err = none → P (f st d).st d)
    (hev : ∀ st d, ValFns st._fns → Evolves st (f st d).st)
    (hmono : ∀ st st' d, Evolves st st' → P st d → P st' d) :
    ∀ (ds : List String) (st : SystemState), ValFns st._fns →
      (runEach f st ds).err = none →
      ∀ d ∈ ds, P (runEach f st ds).st d := by
  intro ds
  induction ds with
  | nil => intro st _ _ d hd; cases hd
  | cons d0 ds ih =>
    intro st hval hok d hd
    obtain ⟨h1, h2⟩ := runEach_cons_parts hok
    rw [runEach_cons_ok h1]
    dsimp only
    have hval' : ValFns (f st d0).st._fns := by
      rw [(hev st d0 hval).2.2.1]; exact hval
    rcases List.mem_cons.mp hd with h3 | h3
    · subst h3
      exact hmono _ _ _
        (runEach_evolves (fun st' d' hv => hev st' d' hv) _ _ hval')
        (hf st d hval h1)
    · exact ih (f st d0).st hval' h2 d h3

theorem startS_ready_post :
    ∀ (fuel : Nat) (st : SystemState) (s : String) (o : Outcome),
      startS fuel st s = o → ValFns st._fns → o.err = none →
      ready fuel o.st s := by
  intro fuel
  induction fuel with
  | zero =>
    intro st s o ho _ hok
    subst ho
    cases hok
  | succ fuel ih =>
    intro st s o ho hval hok
    simp only [startS] at ho
    split at ho
    · subst ho; cases hok
    · next r hr =>
      split at ho
      · subst ho; cases hok
      · next herr =>
        have hev1 : Evolves st
            (runEach (startS fuel) st (dependsOn st.config s)).st :=
          runEach_evolves (fun st' d hv => startS_evolves fuel st' d hv)
            _ st hval
        have hready_deps : ∀ d ∈ dependsOn st.config s,
            ready fuel (runEach (startS fuel) st
              (dependsOn st.config s)).st d :=
          runEach_post_all
            (fun st' d hv he => ih st' d _ rfl hv he)
            (fun st' d hv => startS_evolves fuel st' d hv)
            (fun a b d he hp => ready_mono fuel a b d he hp)
            _ st hval herr
        split at ho
        · next hnull =>
          split at ho
          · subst ho; cases hok
          · next entry hentry =>
            split at ho
            · subst ho; cases hok
            · next v hcb =>
              subst ho
              dsimp only
              have hvalo : ValFns (runEach (startS fuel) st
                  (dependsOn st.config s)).st._fns := by
                rw [hev1.2.2.1]; exact hval
              obtain ⟨w, hw⟩ := hvalo s entry hentry _ _ v hcb
              subst hw
              have hset := evolves_setA w hnull
              refine ⟨?_, ?_, ?_⟩
              · show (lookupA (runEach (startS fuel) st
                  (dependsOn st.config s)).st.config s).isSome = true
                rw [hev1.1, hr]
                rfl
              · intro d hd
                have hd' : d ∈ dependsOn (runEach (startS fuel) st
                    (dependsOn st.config s)).st.config s := hd
                rw [hev1.1] at hd'
                exact ready_mono fuel _ _ d hset (hready_deps d hd')
              · show lookupSVal (setA (runEach (startS fuel) st
                  (dependsOn st.config s)).st._services s (SVal.val w)) s ≠
                  SVal.null
                rw [lookupSVal_setA, if_pos rfl]
                simp
        · next hnnull =>
          subst ho
          refine ⟨?_, ?_, hnnull⟩
          · show (lookupA (runEach (startS fuel) st
              (dependsOn st.config s)).st.config s).isSome = true
            rw [hev1.1, hr]
            rfl
          · intro d hd
            have hd' : d ∈ dependsOn st.config s := by
              rw [← hev1.1]
              exact hd
            exact hready_deps d hd'

/-! ## Success of start on sorted configurations -/

theorem idxOf_lt_length_of_mem :
    ∀ (l : List String) (a : String), a ∈ l → idxOf l a < l.length := by
  intro l a
  induction l with
  | nil => intro h; cases h
  | cons x xs ih =>
    intro h
    by_cases hx : x = a
    · simp [idxOf, hx]
    · have ha : a ∈ xs := by
        rcases List.mem_cons.mp h with h1 | h1
        · exact absurd h1.symm hx
        · exact h1
      rw [List.length_cons, idxOf]
      rw [if_neg hx]
      exact Nat.succ_lt_succ (ih ha)

theorem runEach_pres {f : SystemState → String → Outcome}
    {Inv : SystemState → Prop}
    (hpres : ∀ st d, Inv st → Inv (f st d).st) :
    ∀ (ds : List String) (st : SystemState), Inv st →
      Inv (runEach f st ds).st := by
  intro ds
  induction ds with
  | nil => intro st h; exact h
  | cons d ds ih =>
    intro st h
    cases he : (f st d).err with
    | some e => rw [runEach_cons_err' he]; exact hpres st d h
    | none =>
      rw [runEach_cons_ok he]
      exact ih (f st d).st (hpres st d h)

theorem runEach_all_ok {f : SystemState → String → Outcome}
    {Inv : SystemState → Prop}
    (hpres : ∀ st d, Inv st → Inv (f st d).st) :
    ∀ (ds : List String) (st : SystemState), Inv st →
      (∀ st' d, Inv st' → d ∈ ds → (f st' d).err = none) →
      (runEach f st ds).err = none := by
  intro ds
  induction ds with
  | nil => intro st _ _; rfl
  | cons d ds ih =>
    intro st hInv hok
    have h1 : (f st d).err = none :=
      hok st d hInv (List.mem_cons_self d ds)
    rw [runEach_cons_ok h1]
    exact ih (f st d).st (hpres st d hInv)
      (fun st' d' hi hd' => hok st' d' hi (List.mem_cons_of_mem _ hd'))

/-- The invariant carried through a bulk start: fixed configuration and
registry, and a well-formed service map. -/
def StartInv (conf : Config) (fns : Fns) (st : SystemState) : Prop :=
  st.config = conf ∧ st._fns = fns ∧ StateWF st

theorem startS_pres_startInv {conf : Config} {fns : Fns}
    (hval : ValFns fns) :
    ∀ (fuel : Nat) (st : SystemState) (d : String),
      StartInv conf fns st → StartInv conf fns (startS fuel st d).st := by
  intro fuel st d hinv
  have hvalfns : ValFns st._fns := by rw [hinv.2.1]; exact hval
  have he := startS_evolves fuel st d hvalfns
  exact ⟨he.1.trans hinv.1, he.2.2.1.trans hinv.2.1,
    startS_wf fuel st d hvalfns hinv.2.2⟩

theorem startS_ok_of_sorted (conf : Config) (fns : Fns)
    (order : List String)
    (horder : sortDeps conf = Except.ok order) (href : RefInt conf)
    (hval : ValFns fns) (hnt : NoThrowStart fns)
    (htot : FnsTotal conf fns) :
    ∀ (fuel : Nat) (s : String) (st : SystemState),
      StartInv conf fns st → s ∈ keys conf → idxOf order s < fuel →
      (startS fuel st s).err = none := by
  intro fuel
  induction fuel with
  | zero =>
    intro s st _ _ hidx
    exact absurd hidx (Nat.not_lt_zero _)
  | succ fuel ih =>
    intro s st hinv hs hidx
    obtain ⟨hc, hf, hwf⟩ := hinv
    obtain ⟨r, hr⟩ := lookupA_isSome_of_mem_keys
      (show s ∈ st.config.map Prod.fst by rw [hc]; exact hs)
    have hdepok : ∀ st' d, StartInv conf fns st' →
        d ∈ dependsOn st.config s → (startS fuel st' d).err = none := by
      intro st' d hinv' hd
      rw [hc] at hd
      have hdd : DirectDep conf d s := hd
      have hdk : d ∈ keys conf := href _ (mem_edges.mpr hdd)
      have hprec := sortDeps_direct_precedes horder hdd
      have hidx_d : idxOf order d < fuel := by
        have h1 := hprec.2.2
        omega
      exact ih d st' hinv' hdk hidx_d
    have hdeps : (runEach (startS fuel) st (dependsOn st.config s)).err =
        none :=
      runEach_all_ok (startS_pres_startInv hval fuel) _ st ⟨hc, hf, hwf⟩
        hdepok
    have hinv1 : StartInv conf fns
        (runEach (startS fuel) st (dependsOn st.config s)).st :=
      runEach_pres (startS_pres_startInv hval fuel) _ st ⟨hc, hf, hwf⟩
    simp only [startS]
    split
    · next hnone => rw [hnone] at hr; cases hr
    · next r' hr' =>
      split
      · next e hsome => rw [hdeps] at hsome; cases hsome
      · next =>
        split
        · next hnull =>
          split
          · next hfnone =>
            exfalso
            have h1 := htot s hs
            rw [hinv1.2.1] at hfnone
            rw [hfnone] at h1
            cases h1
          · next entry hentry =>
            split
            · next e hcbe =>
              exfalso
              have hlk : lookupA fns s = some entry := by
                rw [← hinv1.2.1]
                exact hentry
              obtain ⟨res, hres⟩ := hnt s entry hlk _ _
              rw [hres] at hcbe
              cases hcbe
            · rfl
        · rfl

/-! ## Stop lemmas -/

theorem stopS_post :
    ∀ (st : SystemState) (s : String) (o : Outcome), stopS st s = o →
      ∀ (r : Record) (entry : FnsEntry),
      lookupA st.config s = some r → lookupA st._fns s = some entry →
      (∀ f, entry.stop = some f → ∀ v dv, ∃ u, f v dv = Except.ok u) →
      StateWF st →
      o.err = none ∧
      o.st.config = st.config ∧ o.st._order = st._order ∧
      o.st._fns = st._fns ∧
      lookupSVal o.st._services s = SVal.null ∧
      (∀ n, n ≠ s → lookupSVal o.st._services n = lookupSVal st._services n) ∧
      o.st._services.map Prod.fst = st._services.map Prod.fst ∧
      StateWF o.st := by
  intro st s o ho r entry hr hentry hnt hwf
  have hsmem : s ∈ st._services.map Prod.fst := by
    rw [hwf.1]
    exact mem_keys_of_lookupA hr
  have hfst : (setA st._services s SVal.null).map Prod.fst =
      st._services.map Prod.fst := setA_map_fst _ _ _ hsmem
  have hwfset : ∀ kv ∈ setA st._services s SVal.null, kv.2 ≠ SVal.undef := by
    intro kv hkv
    rcases setA_mem_cases _ _ _ _ hkv with h1 | h1
    · rw [h1]; simp
    · exact hwf.2 kv h1
  simp only [stopS] at ho
  split at ho
  · next hnone => rw [hnone] at hr; cases hr
  · next r' hr' =>
    split at ho
    · next hfnone => rw [hfnone] at hentry; cases hentry
    · next entry' hentry' =>
      have hent : entry' = entry := by
        rw [hentry'] at hentry
        cases hentry
        rfl
      subst hent
      split at ho
      · next hnull =>
        subst ho
        exact ⟨rfl, rfl, rfl, rfl, hnull, fun n _ => rfl, rfl, hwf⟩
      · next sv hne =>
        split at ho
        · next f hstop =>
          split at ho
          · next e hcb =>
            exfalso
            obtain ⟨u, hu⟩ := hnt f hstop _ _
            rw [hu] at hcb
            cases hcb
          · next u hcb =>
            subst ho
            refine ⟨rfl, rfl, rfl, rfl, ?_, ?_, hfst, hfst.trans hwf.1, hwfset⟩
            · dsimp only
              rw [lookupSVal_setA, if_pos rfl]
            · intro n hn
              dsimp only
              rw [lookupSVal_setA, if_neg hn]
        · next hstop =>
          subst ho
          refine ⟨rfl, rfl, rfl, rfl, ?_, ?_, hfst, hfst.trans hwf.1, hwfset⟩
          · dsimp only
            rw [lookupSVal_setA, if_pos rfl]
          · intro n hn
            dsimp only
            rw [lookupSVal_setA, if_neg hn]

theorem stopList_post (conf : Config) (fns : Fns)
    (hnt : NoThrowStop fns) (htot : FnsTotal conf fns) :
    ∀ (names : List String) (st : SystemState),
      st.config = conf → st._fns = fns → StateWF st →
      (∀ k ∈ names, k ∈ keys conf) →
      (runEach stopS st names).err = none ∧
      (runEach stopS st names).st.config = conf ∧
      (runEach stopS st names).st._order = st._order ∧
      (runEach stopS st names).st._fns = fns ∧
      StateWF (runEach stopS st names).st ∧
      (runEach stopS st names).st._services.map Prod.fst =
        st._services.map Prod.fst ∧
      ∀ k, lookupSVal (runEach stopS st names).st._services k =
        (if k ∈ names then SVal.null else lookupSVal st._services k) := by
  intro names
  induction names with
  | nil =>
    intro st hc hf hwf _
    refine ⟨rfl, hc, rfl, hf, hwf, rfl, ?_⟩
    intro k
    rw [if_neg (by simp)]
    rfl
  | cons k0 names ih =>
    intro st hc hf hwf hks
    have hk0 : k0 ∈ keys conf := hks k0 (List.mem_cons_self _ _)
    obtain ⟨r, hr⟩ := lookupA_isSome_of_mem_keys
      (show k0 ∈ st.config.map Prod.fst by rw [hc]; exact hk0)
    have hfe := htot k0 hk0
    obtain ⟨entry, hentry⟩ := Option.isSome_iff_exists.mp hfe
    have hentry' : lookupA st._fns k0 = some entry := by rw [hf]; exact hentry
    obtain ⟨herr, hc1, hord1, hf1, hslot1, hoth1, hfst1, hwf1⟩ :=
      stopS_post st k0 (stopS st k0) rfl r entry hr hentry'
        (fun f hstop v dv => hnt k0 entry hentry f hstop v dv) hwf
    obtain ⟨herr2, hc2, hord2, hf2, hwf2, hfst2, hslots2⟩ :=
      ih (stopS st k0).st (by rw [hc1, hc]) (by rw [hf1, hf]) hwf1
        (fun k hk => hks k (List.mem_cons_of_mem _ hk))
    rw [runEach_cons_ok herr]
    dsimp only
    refine ⟨herr2, hc2, hord2.trans hord1, hf2, hwf2, hfst2.trans hfst1, ?_⟩
    intro k
    rw [hslots2 k]
    by_cases hk : k ∈ names
    · rw [if_pos hk, if_pos (List.mem_cons_of_mem _ hk)]
    · rw [if_neg hk]
      by_cases hk0' : k = k0
      · subst hk0'
        rw [if_pos (List.mem_cons_self _ _)]
        exact hslot1
      · rw [if_neg (fun hcc => by
          rcases List.mem_cons.mp hcc with h1 | h1
          · exact hk0' h1
          · exact hk h1)]
        exact hoth1 k hk0'

/-! ## The all-null service map -/

theorem services_eq_nullifyVals :
    ∀ (conf : Config) (l : List (String × SVal)),
      l.map Prod.fst = keys conf → (∀ kv ∈ l, kv.2 = SVal.null) →
      l = nullifyVals conf := by
  intro conf
  induction conf with
  | nil =>
    intro l h _
    have : l = [] := List.map_eq_nil_iff.mp h
    rw [this]
    rfl
  | cons kv rest ih =>
    intro l h hnull
    cases l with
    | nil =>
      rw [List.map_nil] at h
      cases h
    | cons x xs =>
      rw [List.map_cons] at h
      have h' : x.1 :: xs.map Prod.fst = kv.1 :: keys rest := h
      injection h' with h1 h2
      have hx2 : x.2 = SVal.null := hnull x (List.mem_cons_self _ _)
      have hxs : xs = nullifyVals rest :=
        ih xs h2 (fun kv' hkv' => hnull kv' (List.mem_cons_of_mem _ hkv'))
      show x :: xs = (kv.1, SVal.null) :: nullifyVals rest
      rw [hxs]
      have hx : x = (kv.1, SVal.null) := by
        cases x
        simp only [Prod.mk.injEq]
        exact ⟨h1, hx2⟩
      rw [hx]

theorem all_null_of_lookup (l : List (String × SVal))
    (hnd : (l.map Prod.fst).Nodup)
    (h : ∀ k ∈ l.map Prod.fst, lookupSVal l k = SVal.null) :
    ∀ kv ∈ l, kv.2 = SVal.null := by
  intro kv hkv
  have h1 : lookupA l kv.1 = some kv.2 := by
    refine mem_eq_lookupA_of_nodup hnd ?_
    show (kv.1, kv.2) ∈ l
    cases kv
    exact hkv
  have h2 := h kv.1 (List.mem_map_of_mem Prod.fst hkv)
  unfold lookupSVal at h2
  rw [h1] at h2
  exact h2

theorem nullifyVals_no_undef (conf : Config) :
    ∀ kv ∈ nullifyVals conf, kv.2 ≠ SVal.undef := by
  intro kv hkv
  unfold nullifyVals at hkv
  obtain ⟨x, _, hx⟩ := List.mem_map.mp hkv
  rw [← hx]
  simp

theorem mkSystem_state_wf (conf : Config) (fns : Fns) (order : List String) :
    StateWF { config := conf, _order := order,
              _services := nullifyVals conf, _fns := fns } :=
  ⟨nullifyVals_map_fst conf, nullifyVals_no_undef conf⟩

/-! ## Constructor reductions -/

theorem mkSystem_false (conf : Config) (fns : Fns) :
    mkSystem conf fns false =
      match sortDeps conf with
      | Except.error e => Except.error e
      | Except.ok order =>
        Except.ok { config := conf, _order := order,
                    _services := nullifyVals conf, _fns := fns } := rfl

theorem mkSystem_ok_of_sortDeps {conf : Config} {fns : Fns}
    {order : List String} (h : sortDeps conf = Except.ok order) :
    mkSystem conf fns false =
      Except.ok { config := conf, _order := order,
                  _services := nullifyVals conf, _fns := fns } := by
  rw [mkSystem_false, h]

theorem mkSystem_error_of_sortDeps {conf : Config} {fns : Fns} {e : JsError}
    (h : sortDeps conf = Except.error e) :
    mkSystem conf fns false = Except.error e := by
  rw [mkSystem_false, h]

theorem mkSystem_valid {conf : Config} {fns : Fns}
    (hchk : check conf fns = Except.ok true) :
    mkSystem conf fns true = mkSystem conf fns false := by
  unfold mkSystem
  rw [hchk]
  simp

/-! ## Dependency values at invocation time -/

theorem runEach_post_all2 {f : SystemState → String → Outcome}
    {P : SystemState → String → Prop}
    (hf : ∀ st d, ValFns st._fns → StateWF st → (f st d).err = none →
      P (f st d).st d)
    (hev : ∀ st d, ValFns st._fns → Evolves st (f st d).st)
    (hwfp : ∀ st d, ValFns st._fns → StateWF st → StateWF (f st d).st)
    (hmono : ∀ st st' d, Evolves st st' → P st d → P st' d) :
    ∀ (ds : List String) (st : SystemState), ValFns st._fns → StateWF st →
      (runEach f st ds).err = none →
      ∀ d ∈ ds, P (runEach f st ds).st d := by
  intro ds
  induction ds with
  | nil => intro st _ _ _ d hd; cases hd
  | cons d0 ds ih =>
    intro st hval hwf hok d hd
    obtain ⟨h1, h2⟩ := runEach_cons_parts hok
    rw [runEach_cons_ok h1]
    dsimp only
    have hval' : ValFns (f st d0).st._fns := by
      rw [(hev st d0 hval).2.2.1]; exact hval
    have hwf' : StateWF (f st d0).st := hwfp st d0 hval hwf
    rcases List.mem_cons.mp hd with h3 | h3
    · subst h3
      exact hmono _ _ _
        (runEach_evolves (fun st' d' hv => hev st' d' hv) _ _ hval')
        (hf st d hval hwf h1)
    · exact ih (f st d0).st hval' hwf' h2 d h3

theorem runEach_trace_deps {f : SystemState → String → Outcome}
    (hf : ∀ st d, ValFns st._fns → StateWF st →
      ∀ s' args, Event.startEv s' args ∈ (f st d).tr →
        ∀ dd ∈ dependsOn st.config s',
          ∃ v, lookupA args dd = some (SVal.val v))
    (hev : ∀ st d, ValFns st._fns → Evolves st (f st d).st)
    (hwfp : ∀ st d, ValFns st._fns → StateWF st → StateWF (f st d).st) :
    ∀ (ds : List String) (st : SystemState), ValFns st._fns → StateWF st →
      ∀ s' args, Event.startEv s' args ∈ (runEach f st ds).tr →
        ∀ dd ∈ dependsOn st.config s',
          ∃ v, lookupA args dd = some (SVal.val v) := by
  intro ds
  induction ds with
  | nil => intro st _ _ s' args hmem; cases hmem
  | cons d0 ds ih =>
    intro st hval hwf s' args hmem dd hdd
    cases he : (f st d0).err with
    | some e =>
      rw [runEach_cons_err' he] at hmem
      exact hf st d0 hval hwf s' args hmem dd hdd
    | none =>
      rw [runEach_cons_ok he] at hmem
      dsimp only at hmem
      have hval' : ValFns (f st d0).st._fns := by
        rw [(hev st d0 hval).2.2.1]; exact hval
      have hwf' : StateWF (f st d0).st := hwfp st d0 hval hwf
      rcases List.mem_append.mp hmem with h1 | h1
      · exact hf st d0 hval hwf s' args h1 dd hdd
      · have hdd' : dd ∈ dependsOn (f st d0).st.config s' := by
          rw [(hev st d0 hval).1]
          exact hdd
        exact ih (f st d0).st hval' hwf' s' args h1 dd hdd'

theorem startS_trace_deps :
    ∀ (fuel : Nat) (st : SystemState) (s : String) (o : Outcome),
      startS fuel st s = o → ValFns st._fns → StateWF st →
      ∀ s' args, Event.startEv s' args ∈ o.tr →
        ∀ dd ∈ dependsOn st.config s',
          ∃ v, lookupA args dd = some (SVal.val v) := by
  intro fuel
  induction fuel with
  | zero =>
    intro st s o ho _ _ s' args hmem
    subst ho
    cases hmem
  | succ fuel ih =>
    intro st s o ho hval hwf s' args hmem dd hdd
    have hlist := runEach_trace_deps
      (fun st' d hv hw s'' args' hm dd' hdd' =>
        ih st' d _ rfl hv hw s'' args' hm dd' hdd')
      (fun st' d hv => startS_evolves fuel st' d hv)
      (fun st' d hv hw => startS_wf fuel st' d hv hw)
    simp only [startS] at ho
    split at ho
    · subst ho; cases hmem
    · next r hr =>
      split at ho
      · next e hsome =>
        subst ho
        exact hlist _ st hval hwf s' args hmem dd hdd
      · next herr =>
        have hdepval : ∀ dd' ∈ dependsOn st.config s,
            ∃ v, lookupSVal (runEach (startS fuel) st
              (dependsOn st.config s)).st._services dd' = SVal.val v :=
          runEach_post_all2
            (P := fun st' d => ∃ v,
              lookupSVal st'._services d = SVal.val v)
            (fun st' d hv hw he => startS_ok_val fuel st' d _ rfl hv hw he)
            (fun st' d hv => startS_evolves fuel st' d hv)
            (fun st' d hv hw => startS_wf fuel st' d hv hw)
            (fun a b d he hp => ⟨hp.choose, evolves_val_stable he hp.choose_spec⟩)
            _ st hval hwf herr
        split at ho
        · next hnull =>
          split at ho
          · subst ho
            exact hlist _ st hval hwf s' args hmem dd hdd
          · next entry hentry =>
            have hfin : ∀ hm : Event.startEv s' args ∈
                (runEach (startS fuel) st (dependsOn st.config s)).tr ++
                  [Event.startEv s (collectDeps (dependsOn st.config s)
                    (runEach (startS fuel) st
                      (dependsOn st.config s)).st._services)],
                ∃ v, lookupA args dd = some (SVal.val v) := by
              intro hm
              rcases List.mem_append.mp hm with h1 | h1
              · exact hlist _ st hval hwf s' args h1 dd hdd
              · have h2 := List.mem_singleton.mp h1
                injection h2 with hs hargs
                subst hs
                obtain ⟨v, hv⟩ := hdepval dd hdd
                refine ⟨v, ?_⟩
                rw [hargs, collectDeps_mem_lookup hdd, hv]
            split at ho
            · subst ho
              exact hfin hmem
            · subst ho
              exact hfin hmem
        · next hnnull =>
          subst ho
          exact hlist _ st hval hwf s' args hmem dd hdd

/-! ## Contract proofs for the example registries -/

theorem valFns_exFns : ValFns exFns := by
  intro name entry h
  have hmem := lookupA_mem h
  simp only [exFns, List.mem_cons, List.not_mem_nil, or_false] at hmem
  rcases hmem with h1 | h1 | h1 <;>
    rw [Prod.mk.injEq] at h1 <;>
    obtain ⟨-, he⟩ := h1 <;>
    subst he <;>
    intro c dv r hr
  · exact ⟨1, by cases hr; rfl⟩
  · exact ⟨2, by cases hr; rfl⟩
  · dsimp only at hr
    unfold exStartSum at hr
    split at hr
    · next a b _ _ => exact ⟨a + b, by cases hr; rfl⟩
    · exact ⟨0, by cases hr; rfl⟩

theorem noThrowStart_exFns : NoThrowStart exFns := by
  intro name entry h
  have hmem := lookupA_mem h
  simp only [exFns, List.mem_cons, List.not_mem_nil, or_false] at hmem
  rcases hmem with h1 | h1 | h1 <;>
    rw [Prod.mk.injEq] at h1 <;>
    obtain ⟨-, he⟩ := h1 <;>
    subst he <;>
    intro c dv
  · exact ⟨SVal.val 1, rfl⟩
  · exact ⟨SVal.val 2, rfl⟩
  · dsimp only
    unfold exStartSum
    split
    · next a b _ _ => exact ⟨SVal.val (a + b), rfl⟩
    · exact ⟨SVal.val 0, rfl⟩

theorem noThrowStop_exFns : NoThrowStop exFns := by
  intro name entry h
  have hmem := lookupA_mem h
  simp only [exFns, List.mem_cons, List.not_mem_nil, or_false] at hmem
  rcases hmem with h1 | h1 | h1 <;>
    rw [Prod.mk.injEq] at h1 <;>
    obtain ⟨-, he⟩ := h1 <;>
    subst he <;>
    intro f hf
  · cases hf
  · cases hf
  · cases hf
    intro v dv
    exact ⟨SVal.undef, rfl⟩

theorem valFns_exFnsBoom : ValFns exFnsBoom := by
  intro name entry h
  have hmem := lookupA_mem h
  simp only [exFnsBoom, List.mem_cons, List.not_mem_nil, or_false] at hmem
  rcases hmem with h1 | h1 | h1 <;>
    rw [Prod.mk.injEq] at h1 <;>
    obtain ⟨-, he⟩ := h1 <;>
    subst he <;>
    intro c dv r hr
  · exact ⟨1, by cases hr; rfl⟩
  · exact ⟨2, by cases hr; rfl⟩
  · cases hr

/-! ## A throwing start callback -/

theorem startS_throw_spec (fuel : Nat) (st : SystemState) (s : String)
    (o : Outcome) (ho : startS (fuel + 1) st s = o)
    (r : Record) (entry : FnsEntry) (msg : String)
    (hr : lookupA st.config s = some r)
    (hentry : lookupA st._fns s = some entry)
    (hthrow : ∀ c dv, entry.start c dv = Except.error msg)
    (hval : ValFns st._fns) (hwf : StateWF st)
    (hdeps : (runEach (startS fuel) st (dependsOn st.config s)).err = none)
    (hnull : lookupSVal (runEach (startS fuel) st
      (dependsOn st.config s)).st._services s = SVal.null) :
    o.err = some (JsError.cbError msg) ∧
    lookupSVal o.st._services s = SVal.null ∧
    (∀ d ∈ dependsOn st.config s, ∃ v,
      lookupSVal o.st._services d = SVal.val v) ∧
    (∀ n v, lookupSVal st._services n = SVal.val v →
      lookupSVal o.st._services n = SVal.val v) ∧
    o.st.config = st.config ∧ o.st._order = st._order ∧
    o.st._fns = st._fns := by
  have hev1 : Evolves st
      (runEach (startS fuel) st (dependsOn st.config s)).st :=
    runEach_evolves (fun st' d hv => startS_evolves fuel st' d hv) _ st hval
  have hfentry : lookupA (runEach (startS fuel) st
      (dependsOn st.config s)).st._fns s = some entry := by
    rw [hev1.2.2.1]
    exact hentry
  have hdepval : ∀ d ∈ dependsOn st.config s, ∃ v,
      lookupSVal (runEach (startS fuel) st
        (dependsOn st.config s)).st._services d = SVal.val v :=
    runEach_post_all2
      (P := fun st' d => ∃ v, lookupSVal st'._services d = SVal.val v)
      (fun st' d hv hw he => startS_ok_val fuel st' d _ rfl hv hw he)
      (fun st' d hv => startS_evolves fuel st' d hv)
      (fun st' d hv hw => startS_wf fuel st' d hv hw)
      (fun a b d he hp => ⟨hp.choose, evolves_val_stable he hp.choose_spec⟩)
      _ st hval hwf hdeps
  simp only [startS] at ho
  split at ho
  · next hnone => rw [hnone] at hr; cases hr
  · next r' hr' =>
    split at ho
    · next e hsome => rw [hdeps] at hsome; cases hsome
    · next =>
      split at ho
      · next =>
        split at ho
        · next hfnone => rw [hfnone] at hfentry; cases hfentry
        · next entry' hentry'' =>
          have hent : entry' = entry := by
            rw [hfentry] at hentry''
            cases hentry''
            rfl
          subst hent
          split at ho
          · next e hcbe =>
            rw [hthrow _ _] at hcbe
            injection hcbe with hmsg
            subst hmsg
            subst ho
            refine ⟨rfl, hnull, hdepval, ?_, hev1.1, hev1.2.1, hev1.2.2.1⟩
            intro n v hv
            exact evolves_val_stable hev1 hv
          · next v hcb =>
            rw [hthrow _ _] at hcb
            cases hcb
      · next hnnull =>
        exact absurd hnull hnnull

/-! ## Validation helpers -/

theorem checkRecord_error_typeError {r : Record} {e : JsError}
    (h : checkRecord r = Except.error e) : ∃ m, e = JsError.typeError m := by
  unfold checkRecord at h
  split at h
  · split at h
    · split at h
      · injection h with h1
        exact ⟨errorsConfBehaviour, h1.symm⟩
      · cases h
    · injection h with h1
      exact ⟨errorsConfDepends, h1.symm⟩
  · split at h
    · injection h with h1
      exact ⟨errorsConfBehaviour, h1.symm⟩
    · cases h

theorem checkRecord_ok_no_fn {r : Record} {b : Bool}
    (h : checkRecord r = Except.ok b) :
    r.any (fun kv => isFnField kv.2) = false := by
  unfold checkRecord at h
  split at h
  · split at h
    · split at h
      · cases h
      · next hfn => exact Bool.eq_false_iff.mpr hfn
    · cases h
  · split at h
    · cases h
    · next hfn => exact Bool.eq_false_iff.mpr hfn

theorem checkConfig_error_of_fnField :
    ∀ (conf : Config), hasFnField conf = true →
      ∃ m, checkConfig conf = Except.error (JsError.typeError m) := by
  intro conf
  induction conf with
  | nil => intro h; cases h
  | cons kv rest ih =>
    intro h
    cases hrec : checkRecord kv.2 with
    | error e =>
      obtain ⟨m, hm⟩ := checkRecord_error_typeError hrec
      refine ⟨m, ?_⟩
      unfold checkConfig
      rw [hrec, hm]
    | ok b =>
      have hhead : kv.2.any (fun f => isFnField f.2) = false :=
        checkRecord_ok_no_fn hrec
      have hrest : hasFnField rest = true := by
        unfold hasFnField at h ⊢
        rw [List.any_cons, hhead] at h
        simpa using h
      obtain ⟨m, hm⟩ := ih hrest
      refine ⟨m, ?_⟩
      unfold checkConfig
      rw [hrec]
      exact hm

theorem check_error_of_checkConfig {conf : Config} {fns : Fns} {e : JsError}
    (h : checkConfig conf = Except.error e) :
    check conf fns = Except.error e := by
  unfold check
  rw [h]

theorem mkSystem_true_error_of_check {conf : Config} {fns : Fns}
    {e : JsError} (h : check conf fns = Except.error e) :
    mkSystem conf fns true = Except.error e := by
  unfold mkSystem
  rw [h]
  simp

/-! ## The claims -/

/-- Claim C1: the claim states that the precomputed start order is
unchanged by every start and stop operation.  The code violates this: the
bulk stop reverses the cached order array in place (the source calls
Array.prototype.reverse on it), so after one bulk stop on the
composition-scenario System the stored order is reversed and differs from
the order computed at construction.  This theorem evaluates the embedded
code at that failing input. -/
theorem claim_C1_order_mutated :
    mkSystem exConf exFns true = Except.ok exSys ∧
    exSys._order = ["x", "y", "sum"] ∧
    (stopAllS exSys).st._order = ["sum", "y", "x"] ∧
    (stopAllS exSys).st._order ≠ exSys._order := by
  refine ⟨rfl, rfl, by decide, by decide⟩

/-- Claim C2: for every acyclic configuration (carrying the
referential-integrity invariant that the spec data model imposes on
ServiceConfig), the topological sort succeeds, the computed order places
every dependency — direct or transitive — strictly before every service
depending on it, and repeated calls on the same configuration return the
same order. -/
theorem claim_C2_sorted_order (conf : Config) (hacyc : Acyclic conf)
    (href : RefInt conf) :
    ∃ order, sortDeps conf = Except.ok order ∧
      (∀ a b, TransDep conf a b → precedes order a b) ∧
      (∀ order', sortDeps conf = Except.ok order' → order' = order) := by
  obtain ⟨order, hord⟩ := sortDeps_ok_of_acyclic hacyc href
  refine ⟨order, hord, fun a b h => sortDeps_trans_precedes hord h, ?_⟩
  intro order' h'
  rw [hord] at h'
  injection h' with h''
  exact h''.symm

/-- Witness for C2 at the composition-scenario configuration. -/
theorem claim_C2_witness :
    ∃ order, sortDeps exConf = Except.ok order ∧
      (∀ a b, TransDep exConf a b → precedes order a b) ∧
      (∀ order', sortDeps exConf = Except.ok order' → order' = order) :=
  claim_C2_sorted_order exConf
    (acyclic_of_sortDeps_ok
      (show sortDeps exConf = Except.ok ["x", "y", "sum"] from rfl))
    (show ∀ e ∈ edges exConf, e.1 ∈ keys exConf by decide)

/-- Claim C3: on a configuration with referential integrity whose
dependency graph contains a cycle, construction fails with the
CycleError — the constructor returns the error and produces no
SystemState, so no per-service state exists; when validation is requested
and passes, the same CycleError is raised.  On an acyclic configuration
construction succeeds and initializes every service value to null. -/
theorem claim_C3_cycle_construction (conf : Config) (fns : Fns)
    (href : RefInt conf) :
    ((∃ n, TransDep conf n n) →
      mkSystem conf fns false = Except.error JsError.cycleError ∧
      (check conf fns = Except.ok true →
        mkSystem conf fns true = Except.error JsError.cycleError)) ∧
    (Acyclic conf →
      ∃ st, mkSystem conf fns false = Except.ok st ∧
        ∀ k ∈ keys conf, lookupSVal st._services k = SVal.null) := by
  constructor
  · intro hcyc
    have h := sortDeps_cycle_error href hcyc
    refine ⟨mkSystem_error_of_sortDeps h, ?_⟩
    intro hchk
    rw [mkSystem_valid hchk]
    exact mkSystem_error_of_sortDeps h
  · intro hacyc
    obtain ⟨order, hord⟩ := sortDeps_ok_of_acyclic hacyc href
    refine ⟨_, mkSystem_ok_of_sortDeps hord, ?_⟩
    intro k hk
    exact lookupSVal_nullifyVals hk

/-- Witness for C3: the two-service cycle fails construction with the
CycleError, and the acyclic composition scenario constructs with every
value null. -/
theorem claim_C3_witness :
    mkSystem cycConf cycFns false = Except.error JsError.cycleError ∧
    ∃ st, mkSystem exConf exFns false = Except.ok st ∧
      ∀ k ∈ keys exConf, lookupSVal st._services k = SVal.null :=
  ⟨((claim_C3_cycle_construction cycConf cycFns
      (show ∀ e ∈ edges cycConf, e.1 ∈ keys cycConf by decide)).1
      ⟨"a", Relation.TransGen.tail
        (Relation.TransGen.single
          (show "a" ∈ dependsOn cycConf "b" by decide))
        (show "b" ∈ dependsOn cycConf "a" by decide)⟩).1,
   (claim_C3_cycle_construction exConf exFns
      (show ∀ e ∈ edges exConf, e.1 ∈ keys exConf by decide)).2
     (acyclic_of_sortDeps_ok
       (show sortDeps exConf = Except.ok ["x", "y", "sum"] from rfl))⟩

/-- Claim C10: stop(name) destructures the behavior-registry entry before
inspecting the service slot, so a name with a configuration entry but no
behavior entry throws the property-of-undefined TypeError even though the
service is stopped (and regardless of the slot state). -/
theorem claim_C10_stop_missing_entry (st : SystemState) (s : String)
    (r : Record) (hr : lookupA st.config s = some r)
    (hfns : lookupA st._fns s = none) :
    stopS st s = { err := some (JsError.undefinedAccess "stop"),
                   st := st, tr := [] } := by
  simp only [stopS]
  split
  · next hnone => rw [hnone] at hr; cases hr
  · next r' hr' =>
    split
    · rfl
    · next entry hentry => rw [hfns] at hentry; cases hentry

/-- Witness for C10 at a stopped one-service System with an empty
behavior registry. -/
theorem claim_C10_witness :
    stopS aNoFnsSys "a" = { err := some (JsError.undefinedAccess "stop"),
                            st := aNoFnsSys, tr := [] } :=
  claim_C10_stop_missing_entry aNoFnsSys "a" [] rfl rfl

/-- Claim C4, counterexample: the claim quantifies over every System
state, but when the start callback returns null the slot stays null and a
second start(name) call re-invokes the callback: two invocations total,
and the second call produced a nonempty trace. -/
theorem claim_C4_counterexample :
    countStart ((startS 1 nSysNull "n").tr ++
      (startS 1 (startS 1 nSysNull "n").st "n").tr) "n" = 2 ∧
    (startS 1 nSysNull "n").err = none ∧
    (startS 1 (startS 1 nSysNull "n").st "n").tr ≠ [] := by
  refine ⟨by decide, by decide, by decide⟩

/-- Claim C4 (amended): provided the start callbacks honour the value
contract — returning proper non-null values — and the first start(name)
call succeeds, a second start(name) is a complete no-op: it returns the
same state (the stored value of the named service and of every other
service is unchanged), records no callback invocation, and throws
nothing; and when the service was not already running, the first call
invoked its start callback exactly once. -/
theorem claim_C4_amended_idempotent (fuel : Nat) (st : SystemState)
    (s : String) (hval : ValFns st._fns)
    (hok : (startS fuel st s).err = none) :
    startS fuel (startS fuel st s).st s =
      { err := none, st := (startS fuel st s).st, tr := [] } ∧
    (lookupSVal st._services s = SVal.null →
      countStart (startS fuel st s).tr s = 1) :=
  ⟨startS_noop fuel _ s (startS_ready_post fuel st s _ rfl hval hok),
   fun hnull => startS_count_one fuel st s _ rfl hval hok hnull⟩

/-- Witness for the amended C4 at the composition scenario, starting
sum. -/
theorem claim_C4_witness :
    startS 3 (startS 3 exSys "sum").st "sum" =
      { err := none, st := (startS 3 exSys "sum").st, tr := [] } ∧
    (lookupSVal exSys._services "sum" = SVal.null →
      countStart (startS 3 exSys "sum").tr "sum" = 1) :=
  claim_C4_amended_idempotent 3 exSys "sum" valFns_exFns (by decide)

/-- Claim C6: if the start callback of the named service throws, the
error propagates to the caller carrying the thrown payload unmodified
(as cbError msg), the value of the named service remains null, every
direct dependency started before the failure holds a non-null value,
every service that was already running keeps its value (no rollback), and
the System remains queryable: configuration, order and registry are
intact. -/
theorem claim_C6_callback_throw (fuel : Nat) (st : SystemState)
    (s : String) (r : Record) (entry : FnsEntry) (msg : String)
    (hr : lookupA st.config s = some r)
    (hentry : lookupA st._fns s = some entry)
    (hthrow : ∀ c dv, entry.start c dv = Except.error msg)
    (hval : ValFns st._fns) (hwf : StateWF st)
    (hdeps : (runEach (startS fuel) st (dependsOn st.config s)).err = none)
    (hnull : lookupSVal (runEach (startS fuel) st
      (dependsOn st.config s)).st._services s = SVal.null) :
    (startS (fuel + 1) st s).err = some (JsError.cbError msg) ∧
    lookupSVal (startS (fuel + 1) st s).st._services s = SVal.null ∧
    (∀ d ∈ dependsOn st.config s, ∃ v,
      lookupSVal (startS (fuel + 1) st s).st._services d = SVal.val v) ∧
    (∀ n v, lookupSVal st._services n = SVal.val v →
      lookupSVal (startS (fuel + 1) st s).st._services n = SVal.val v) ∧
    (startS (fuel + 1) st s).st.config = st.config ∧
    (startS (fuel + 1) st s).st._order = st._order ∧
    (startS (fuel + 1) st s).st._fns = st._fns :=
  startS_throw_spec fuel st s _ rfl r entry msg hr hentry hthrow hval hwf
    hdeps hnull

/-- Witness for C6: the composition scenario with the sum start callback
replaced by a throwing one; x and y start and stay started, sum stays
null, and the boom error propagates unmodified. -/
theorem claim_C6_witness :
    (startS 3 exSysBoom "sum").err = some (JsError.cbError "boom") ∧
    lookupSVal (startS 3 exSysBoom "sum").st._services "sum" = SVal.null ∧
    (∀ d ∈ dependsOn exSysBoom.config "sum", ∃ v,
      lookupSVal (startS 3 exSysBoom "sum").st._services d = SVal.val v) ∧
    (∀ n v, lookupSVal exSysBoom._services n = SVal.val v →
      lookupSVal (startS 3 exSysBoom "sum").st._services n = SVal.val v) ∧
    (startS 3 exSysBoom "sum").st.config = exSysBoom.config ∧
    (startS 3 exSysBoom "sum").st._order = exSysBoom._order ∧
    (startS 3 exSysBoom "sum").st._fns = exSysBoom._fns :=
  claim_C6_callback_throw 2 exSysBoom "sum"
    [("depends", FieldVal.depList ["x", "y"])] ⟨exStartBoom, none⟩ "boom"
    rfl rfl (fun _ _ => rfl) valFns_exFnsBoom
    (mkSystem_state_wf exConf exFnsBoom ["x", "y", "sum"])
    (by decide) (by decide)

/-- Claim C7: with a configuration entry and a behavior entry for the
named service, stop(name) on a running service invokes the registered
stop callback on the current value and the direct-dependency values (and
is a no-op callback-wise when none is registered), sets exactly the named
slot to null discarding the callback result, and leaves every other
service slot untouched; stop(name) on an already-stopped service invokes
no callback and changes nothing. -/
theorem claim_C7_stop_frame (st : SystemState) (s : String) (r : Record)
    (entry : FnsEntry)
    (hr : lookupA st.config s = some r)
    (hentry : lookupA st._fns s = some entry) :
    (lookupSVal st._services s = SVal.null →
      stopS st s = { err := none, st := st, tr := [] }) ∧
    (∀ v f u, lookupSVal st._services s = SVal.val v → entry.stop = some f →
      f (SVal.val v) (collectDeps (dependsOn st.config s) st._services) =
        Except.ok u →
      stopS st s =
        { err := none,
          st := { st with _services := setA st._services s SVal.null },
          tr := [Event.stopEv s (SVal.val v)
            (collectDeps (dependsOn st.config s) st._services)] }) ∧
    (∀ v, lookupSVal st._services s = SVal.val v → entry.stop = none →
      stopS st s =
        { err := none,
          st := { st with _services := setA st._services s SVal.null },
          tr := [] }) ∧
    (∀ n, n ≠ s → lookupSVal (setA st._services s SVal.null) n =
      lookupSVal st._services n) ∧
    lookupSVal (setA st._services s SVal.null) s = SVal.null := by
  refine ⟨?_, ?_, ?_, ?_, ?_⟩
  · intro hnull
    simp only [stopS, hr, hentry, hnull]
  · intro v f u hv hf hcb
    simp only [stopS, hr, hentry, hv, hf, hcb]
  · intro v hv hf
    simp only [stopS, hr, hentry, hv, hf]
  · intro n hn
    rw [lookupSVal_setA, if_neg hn]
  · rw [lookupSVal_setA, if_pos rfl]

/-- Claim C8, counterexample: the claim asserts that any configuration
with a function-valued record field constructs successfully when
validation is disabled; a record that also carries a self-dependency
fails validation as claimed with validation on, yet fails with the
CycleError — not success — with validation off. -/
theorem claim_C8_counterexample :
    hasFnField fnFieldCycConf = true ∧
    mkSystem fnFieldCycConf aFns true =
      Except.error (JsError.typeError errorsConfBehaviour) ∧
    mkSystem fnFieldCycConf aFns false = Except.error JsError.cycleError :=
  ⟨rfl, rfl, rfl⟩

/-- Claim C8 (amended): constructing with validation over a configuration
holding a function-valued record field always fails with a validation
TypeError before any state is built; with validation disabled the same
inputs skip validation entirely, and construction succeeds whenever the
configuration is otherwise constructible — acyclic with known
dependencies — deferring any failure to start/stop time. -/
theorem claim_C8_amended (conf : Config) (fns : Fns)
    (hfn : hasFnField conf = true) :
    (∃ m, mkSystem conf fns true = Except.error (JsError.typeError m)) ∧
    (Acyclic conf → RefInt conf →
      ∃ st, mkSystem conf fns false = Except.ok st) := by
  constructor
  · obtain ⟨m, hm⟩ := checkConfig_error_of_fnField conf hfn
    exact ⟨m, mkSystem_true_error_of_check (check_error_of_checkConfig hm)⟩
  · intro hacyc href
    obtain ⟨order, hord⟩ := sortDeps_ok_of_acyclic hacyc href
    exact ⟨_, mkSystem_ok_of_sortDeps hord⟩

/-- Witness for the amended C8 at the acyclic one-service configuration
with a function field. -/
theorem claim_C8_witness :
    (∃ m, mkSystem fnFieldConf aFns true =
      Except.error (JsError.typeError m)) ∧
    (Acyclic fnFieldConf → RefInt fnFieldConf →
      ∃ st, mkSystem fnFieldConf aFns false = Except.ok st) :=
  claim_C8_amended fnFieldConf aFns rfl

/-- Claim C9: during any start operation — single service or a sweep over
an arbitrary list of names, hence regardless of the iteration order of
the stored order list — on a System whose start callbacks return proper
values, whenever a start callback is invoked, the recorded
dependency-values argument maps every direct dependency of that service
to a proper non-null value (the value that the slot holds at the moment
of invocation, as the argument is built from the live service map). -/
theorem claim_C9_dep_injection (fuel : Nat) (st : SystemState)
    (hval : ValFns st._fns) (hwf : StateWF st) :
    (∀ s s' args, Event.startEv s' args ∈ (startS fuel st s).tr →
      ∀ d ∈ dependsOn st.config s',
        ∃ v, lookupA args d = some (SVal.val v)) ∧
    (∀ names s' args,
      Event.startEv s' args ∈ (runEach (startS fuel) st names).tr →
      ∀ d ∈ dependsOn st.config s',
        ∃ v, lookupA args d = some (SVal.val v)) := by
  constructor
  · intro s s' args hmem d hd
    exact startS_trace_deps fuel st s _ rfl hval hwf s' args hmem d hd
  · intro names s' args hmem d hd
    exact runEach_trace_deps
      (fun st' d' hv hw s'' args' hm dd' hdd' =>
        startS_trace_deps fuel st' d' _ rfl hv hw s'' args' hm dd' hdd')
      (fun st' d' hv => startS_evolves fuel st' d' hv)
      (fun st' d' hv hw => startS_wf fuel st' d' hv hw)
      names st hval hwf s' args hmem d hd

/-- Witness for C9 at the composition scenario. -/
theorem claim_C9_witness :
    (∀ s s' args, Event.startEv s' args ∈ (startS 3 exSys s).tr →
      ∀ d ∈ dependsOn exSys.config s',
        ∃ v, lookupA args d = some (SVal.val v)) ∧
    (∀ names s' args,
      Event.startEv s' args ∈ (runEach (startS 3) exSys names).tr →
      ∀ d ∈ dependsOn exSys.config s',
        ∃ v, lookupA args d = some (SVal.val v)) :=
  claim_C9_dep_injection 3 exSys valFns_exFns
    (mkSystem_state_wf exConf exFns ["x", "y", "sum"])

/-- Witness for C7 at the mixed-state composition System, on the running
service sum (whose registry entry carries a stop callback). -/
theorem claim_C7_witness :
    (lookupSVal exSysRun._services "sum" = SVal.null →
      stopS exSysRun "sum" = { err := none, st := exSysRun, tr := [] }) ∧
    (∀ v f u, lookupSVal exSysRun._services "sum" = SVal.val v →
      FnsEntry.stop ⟨exStartSum, some exStopOk⟩ = some f →
      f (SVal.val v) (collectDeps (dependsOn exSysRun.config "sum")
        exSysRun._services) = Except.ok u →
      stopS exSysRun "sum" =
        { err := none,
          st := { exSysRun with
                  _services := setA exSysRun._services "sum" SVal.null },
          tr := [Event.stopEv "sum" (SVal.val v)
            (collectDeps (dependsOn exSysRun.config "sum")
              exSysRun._services)] }) ∧
    (∀ v, lookupSVal exSysRun._services "sum" = SVal.val v →
      FnsEntry.stop ⟨exStartSum, some exStopOk⟩ = none →
      stopS exSysRun "sum" =
        { err := none,
          st := { exSysRun with
                  _services := setA exSysRun._services "sum" SVal.null },
          tr := [] }) ∧
    (∀ n, n ≠ "sum" →
      lookupSVal (setA exSysRun._services "sum" SVal.null) n =
        lookupSVal exSysRun._services n) ∧
    lookupSVal (setA exSysRun._services "sum" SVal.null) "sum" =
      SVal.null :=
  claim_C7_stop_frame exSysRun "sum"
    [("depends", FieldVal.depList ["x", "y"])] ⟨exStartSum, some exStopOk⟩
    rfl rfl

/-- Claim C5: round-trip.  On a freshly constructed System over a
well-formed configuration (unique keys, referential integrity — the
ServiceConfig invariants — with construction succeeding, hence acyclic)
whose behavior registry is total, whose start callbacks return proper
non-null values and never throw, and whose stop callbacks never throw,
bulk start followed by bulk stop succeeds and leaves the values map with
every entry null — the very list the constructor built, equal to the
pre-start state. -/
theorem claim_C5_roundtrip (conf : Config) (fns : Fns) (st0 : SystemState)
    (hmk : mkSystem conf fns false = Except.ok st0)
    (hnd : (keys conf).Nodup) (href : RefInt conf)
    (hval : ValFns fns) (hnts : NoThrowStart fns) (hntp : NoThrowStop fns)
    (htot : FnsTotal conf fns) (fuel : Nat)
    (hfuel : (keys conf).length ≤ fuel) :
    (startAllS fuel st0).err = none ∧
    (stopAllS (startAllS fuel st0).st).err = none ∧
    (stopAllS (startAllS fuel st0).st).st._services = nullifyVals conf ∧
    (stopAllS (startAllS fuel st0).st).st._services = st0._services := by
  rw [mkSystem_false] at hmk
  split at hmk
  · cases hmk
  · next order hord =>
    injection hmk with hmk'
    have hconf0 : st0.config = conf := by rw [← hmk']
    have hord0 : st0._order = order := by rw [← hmk']
    have hsvc0 : st0._services = nullifyVals conf := by rw [← hmk']
    have hfns0 : st0._fns = fns := by rw [← hmk']
    have hperm : order.Perm (keys conf) := sortDeps_ok_perm hord
    have hwf0 : StateWF st0 := by
      constructor
      · rw [hsvc0, hconf0]
        exact nullifyVals_map_fst conf
      · rw [hsvc0]
        exact nullifyVals_no_undef conf
    have hInv0 : StartInv conf fns st0 := ⟨hconf0, hfns0, hwf0⟩
    have hstart : (startAllS fuel st0).err = none := by
      unfold startAllS
      refine runEach_all_ok (startS_pres_startInv hval fuel) _ _ hInv0 ?_
      intro st' d hinv hd
      rw [hord0] at hd
      exact startS_ok_of_sorted conf fns order hord href hval hnts htot
        fuel d st' hinv (hperm.subset hd)
        (lt_of_lt_of_le (idxOf_lt_length_of_mem order d hd)
          (le_trans (le_of_eq hperm.length_eq) hfuel))
    have hInv1 : StartInv conf fns (startAllS fuel st0).st := by
      unfold startAllS
      exact runEach_pres (startS_pres_startInv hval fuel) _ _ hInv0
    have hvals0 : ValFns st0._fns := by rw [hfns0]; exact hval
    have hord1 : (startAllS fuel st0).st._order = order := by
      unfold startAllS
      rw [(runEach_evolves (fun st' d hv => startS_evolves fuel st' d hv)
        _ _ hvals0).2.1]
      exact hord0
    have hwfx : StateWF
        { (startAllS fuel st0).st with
          _order := (startAllS fuel st0).st._order.reverse } :=
      ⟨hInv1.2.2.1, hInv1.2.2.2⟩
    have hstopEq : stopAllS (startAllS fuel st0).st =
        runEach stopS
          { (startAllS fuel st0).st with
            _order := (startAllS fuel st0).st._order.reverse }
          (startAllS fuel st0).st._order.reverse := rfl
    obtain ⟨herr2, hc2, hord2x, hf2, hwf2, hfst2, hslots2⟩ :=
      stopList_post conf fns hntp htot
        ((startAllS fuel st0).st._order.reverse)
        { (startAllS fuel st0).st with
          _order := (startAllS fuel st0).st._order.reverse }
        hInv1.1 hInv1.2.1 hwfx
        (fun k hk => by
          rw [hord1] at hk
          exact hperm.subset (List.mem_reverse.mp hk))
    rw [hstopEq]
    have hfstKeys : (runEach stopS
        { (startAllS fuel st0).st with
          _order := (startAllS fuel st0).st._order.reverse }
        (startAllS fuel st0).st._order.reverse).st._services.map
          Prod.fst = keys conf := by
      rw [hfst2]
      show (startAllS fuel st0).st._services.map Prod.fst = keys conf
      rw [hInv1.2.2.1, hInv1.1]
    have hallnull := all_null_of_lookup _ (by rw [hfstKeys]; exact hnd)
      (fun k hk => by
        rw [hfstKeys] at hk
        have hkrev : k ∈ (startAllS fuel st0).st._order.reverse := by
          rw [hord1]
          exact List.mem_reverse.mpr (hperm.mem_iff.mpr hk)
        rw [hslots2 k, if_pos hkrev])
    have heq := services_eq_nullifyVals conf _ hfstKeys hallnull
    refine ⟨hstart, herr2, heq, ?_⟩
    rw [heq, hsvc0]

/-- Witness for C5 at the composition scenario with fuel 3. -/
theorem claim_C5_witness :
    (startAllS 3 exSys).err = none ∧
    (stopAllS (startAllS 3 exSys).st).err = none ∧
    (stopAllS (startAllS 3 exSys).st).st._services = nullifyVals exConf ∧
    (stopAllS (startAllS 3 exSys).st).st._services = exSys._services :=
  claim_C5_roundtrip exConf exFns exSys rfl (by decide)
    (show ∀ e ∈ edges exConf, e.1 ∈ keys exConf by decide)
    valFns_exFns noThrowStart_exFns noThrowStop_exFns
    (show ∀ k ∈ keys exConf, (lookupA exFns k).isSome = true by decide)
    3 (by decide)

end Attune
